import Mathlib

/-!
# Verification of the BMP encoder/quantizer pipeline

Shallow embedding of the core of `aryascripts/page-apps`:
the quantization + encoding pipeline of `bmp-convert` (`encoder.js`, mirrored by
`preview.js`).  JavaScript numbers are modelled exactly: all the arithmetic the
pipeline performs (integer channel values, `/16` dithering weights, comparisons
of weighted distances, `Math.round` of sample averages) is exact in IEEE doubles
at these magnitudes, so `Nat`/`Int`/`ℚ` faithfully reproduce it.  Typed-array
stores are modelled with their ECMAScript semantics: `DataView.setUint8` wraps
modulo 256, `Uint8ClampedArray` assignment clamps to `[0,255]` (and rounds
half-to-even for non-integers).  The `TypeError` that `medianCutQuantize` can
throw (reading a field of `undefined`) is modelled by `Option.none`.
-/

namespace BmpSpec

/-- An RGB color, as produced by the palette builder (`{r, g, b}` objects). -/
structure RGB where
  r : Nat
  g : Nat
  b : Nat
deriving DecidableEq, Repr, Inhabited

/-- Black, the reserved palette entry. -/
def black : RGB := ⟨0, 0, 0⟩

/-- A color sample collected from the image: `{r, g, b, count}` objects built
by the deduplication scan at the start of `medianCutQuantize`. -/
structure ColorSample where
  r : Nat
  g : Nat
  b : Nat
  count : Nat
deriving DecidableEq, Repr, Inhabited

/-- A median-cut working box: a list of samples plus an axis-aligned bounding
range, exactly the `{colors, rMin, rMax, gMin, gMax, bMin, bMax}` objects of
`medianCutQuantize`. -/
structure Box where
  colors : List ColorSample
  rMin : Nat
  rMax : Nat
  gMin : Nat
  gMax : Nat
  bMin : Nat
  bMax : Nat
deriving DecidableEq, Repr, Inhabited

/-- An RGBA pixel buffer with its dimensions (the `ImageData` interface):
`data` is the flat byte sequence, 4 bytes per pixel, row-major. -/
structure Image where
  width : Nat
  height : Nat
  data : List Nat
deriving DecidableEq, Repr, Inhabited

/-- 100 times the square of the EXACT value of the source's
`perceptualDistance` (`encoder.js` lines 64-71), which returns
`Math.sqrt(0.3*dr*dr + 0.59*dg*dg + 0.11*db*db)`.
Since `x ↦ sqrt(x / 100)` is strictly monotone on nonnegative reals,
comparing this integer is equivalent to comparing the exact distances.  The
source compares IEEE-754 doubles, which agree with the exact order on
distinct exact distances (their gap dwarfs the rounding error) but can
differ at exactly-tied distances, where the computed doubles may be one ulp
apart; `perceptualDistanceFP` below models the computed doubles exactly, and
the C10 theorems characterize the tie behaviour against it.  The claims
proved over this exact model do not depend on which of two exactly-tied
entries the matcher picks. -/
def perceptualDistanceSq100 (r1 g1 b1 r2 g2 b2 : Nat) : ℤ :=
  30 * ((r1 : ℤ) - r2) ^ 2 + 59 * ((g1 : ℤ) - g2) ^ 2 + 11 * ((b1 : ℤ) - b2) ^ 2

/-- Distance from a query color to a palette entry, in the scaled form above. -/
def distToEntry (r g b : Nat) (c : RGB) : ℤ :=
  perceptualDistanceSq100 r g b c.r c.g c.b

/-- The loop body of `findClosestColor` (`encoder.js` lines 482-500):
linear scan keeping the strictly smallest distance seen so far.  `minD = none`
models the `Infinity` initial value (every finite distance is `< Infinity`),
`best` models `bestIndex` (initially 0). -/
def findClosestColorGo (r g b : Nat) : List RGB → Nat → Option ℤ → Nat → Nat
  | [], _, _, best => best
  | c :: rest, i, minD, best =>
    let d := distToEntry r g b c
    match minD with
    | none => findClosestColorGo r g b rest (i + 1) (some d) i
    | some m =>
      if d < m then findClosestColorGo r g b rest (i + 1) (some d) i
      else findClosestColorGo r g b rest (i + 1) (some m) best

/-- `findClosestColor` as returned by `build8BitPalette` / `build4BitPalette`:
maps `(r, g, b)` to the index of the first palette entry of minimal
perceptual distance. -/
def findClosestColor (pal : List RGB) (r g b : Nat) : Nat :=
  findClosestColorGo r g b pal 0 none 0

/-- The pixel scan of `medianCutQuantize` (lines 80-93): group the flat byte
list into RGBA quadruples.  A trailing partial group (possible only in an
ill-formed buffer whose length is not a multiple of 4) is dropped here; the
JS would process it — `undefined < 128` is `false`, so the alpha `continue`
is not taken and the partial pixel's `undefined` channels would be read.
Every claim quantifies over well-formed buffers (length `4·w·h`), where no
partial group exists and the two behaviours coincide. -/
def pixelsOf : List Nat → List (Nat × Nat × Nat × Nat)
  | r :: g :: b :: a :: rest => (r, g, b, a) :: pixelsOf rest
  | _ => []

/-- Record one opaque pixel into the sample list: the JS `Map` keyed by
`(r<<16)|(g<<8)|b` with the parallel insertion-ordered `colors` array
increments the count of an existing exact `(r,g,b)` sample or appends a new
sample with count 1. -/
def bumpColor (r g b : Nat) : List ColorSample → List ColorSample
  | [] => [⟨r, g, b, 1⟩]
  | c :: rest =>
    if c.r = r ∧ c.g = g ∧ c.b = b then ⟨c.r, c.g, c.b, c.count + 1⟩ :: rest
    else c :: bumpColor r g b rest

/-- The unique-color collection pass of `medianCutQuantize` (lines 76-93):
pixels with alpha < 128 are skipped entirely. -/
def collectColors (data : List Nat) : List ColorSample :=
  (pixelsOf data).foldl
    (fun acc p => if p.2.2.2 < 128 then acc else bumpColor p.1 p.2.1 p.2.2.1 acc) []

/-- `box.rMax - box.rMin` as evaluated by JS (may in principle be negative,
hence `ℤ`). -/
def rRange (box : Box) : ℤ := (box.rMax : ℤ) - box.rMin

/-- `box.gMax - box.gMin`. -/
def gRange (box : Box) : ℤ := (box.gMax : ℤ) - box.gMin

/-- `box.bMax - box.bMin`. -/
def bRange (box : Box) : ℤ := (box.bMax : ℤ) - box.bMin

/-- The bounding volume `rRange * gRange * bRange` used to pick the box to
split. -/
def boxVolume (box : Box) : ℤ := rRange box * gRange box * bRange box

/-- The largest-volume search of the split loop (lines 115-132): scan all
boxes, skip those with at most one sample, keep the strictly largest volume;
`largestBoxIndex = -1` (no candidate) is modelled by `none`, and
`largestVolume` starts at 0 so only boxes of positive volume qualify. -/
def findLargestIdx (boxes : List Box) : Option Nat :=
  (boxes.enum.foldl
    (fun st ic =>
      if ic.2.colors.length ≤ 1 then st
      else if st.2 < boxVolume ic.2 then (some ic.1, boxVolume ic.2) else st)
    ((none : Option Nat), (0 : ℤ))).1

/-- The force-split fallback search (lines 139-152): the first box whose
bounding range exceeds 1 in any channel, regardless of its sample count. -/
def findSplittableIdx (boxes : List Box) : Option Nat :=
  boxes.findIdx? fun box =>
    decide (1 < rRange box) || decide (1 < gRange box) || decide (1 < bRange box)

/-- The split axis (`sortBy` in the source). -/
inductive Axis
  | r
  | g
  | b
deriving DecidableEq, Repr

/-- Axis selection (lines 176-188): `rRange >= gRange && rRange >= bRange`
picks `r`, else `gRange >= bRange` picks `g`, else `b`. -/
def chooseAxis (box : Box) : Axis :=
  if rRange box ≥ gRange box ∧ rRange box ≥ bRange box then .r
  else if gRange box ≥ bRange box then .g
  else .b

/-- A sample's coordinate on an axis. -/
def sortKey : Axis → ColorSample → Nat
  | .r, c => c.r
  | .g, c => c.g
  | .b, c => c.b

/-- A box's lower bound on an axis (`box[sortBy + "Min"]`). -/
def axisMin : Axis → Box → Nat
  | .r, box => box.rMin
  | .g, box => box.gMin
  | .b, box => box.bMin

/-- A box's upper bound on an axis (`box[sortBy + "Max"]`). -/
def axisMax : Axis → Box → Nat
  | .r, box => box.rMax
  | .g, box => box.gMax
  | .b, box => box.bMax

/-- Overwrite a box's upper bound on an axis. -/
def setAxisMax (axis : Axis) (box : Box) (v : Nat) : Box :=
  match axis with
  | .r => { box with rMax := v }
  | .g => { box with gMax := v }
  | .b => { box with bMax := v }

/-- Overwrite a box's lower bound on an axis. -/
def setAxisMin (axis : Axis) (box : Box) (v : Nat) : Box :=
  match axis with
  | .r => { box with rMin := v }
  | .g => { box with gMin := v }
  | .b => { box with bMin := v }

/-- Build the two child boxes from the parent and the left/right sample lists
(lines 250-294): children start with all the parent's bounds; then, only on
the split axis, a nonempty left child's upper bound becomes its last sample's
coordinate and a nonempty right child's lower bound becomes its first
sample's coordinate; an empty child keeps the parent's bounds. -/
def updateBounds (box : Box) (axis : Axis) (L R : List ColorSample) : Box × Box :=
  let leftBox := { box with colors := L }
  let rightBox := { box with colors := R }
  let leftBox :=
    match L.getLast? with
    | some c => setAxisMax axis leftBox (sortKey axis c)
    | none => leftBox
  let rightBox :=
    match R.head? with
    | some c => setAxisMin axis rightBox (sortKey axis c)
    | none => rightBox
  (leftBox, rightBox)

/-- The forced split of a box holding (at most) one sample but a real bounding
range (lines 192-220): compare the sample with the geometric midpoint of the
range on the split axis, then patch up so that neither child list is empty. -/
def forcedSplitChildren (box : Box) (axis : Axis) (color : ColorSample) :
    List ColorSample × List ColorSample :=
  let midpoint := (axisMin axis box + axisMax axis box) / 2
  let l : List ColorSample := if sortKey axis color ≤ midpoint then [color] else []
  let r : List ColorSample := if midpoint < sortKey axis color then [color] else []
  if l.isEmpty ∧ r.isEmpty then ([color], [color])
  else if ¬l.isEmpty ∧ r.isEmpty then (l, [color])
  else if l.isEmpty ∧ ¬r.isEmpty then ([color], r)
  else (l, r)

/-- The count-weighted median search (lines 229-243): the first index at which
the cumulative count reaches at least half the total (`medianCount >=
totalCount / 2`, i.e. `totalCount ≤ 2 * medianCount` — exact in doubles).
Returns 0 (the JS initial value of `medianIndex`) if the loop never breaks,
which cannot happen for a nonempty list. -/
def medianIdxGo (total : Nat) : Nat → Nat → List ColorSample → Nat
  | _, _, [] => 0
  | acc, i, c :: rest =>
    if total ≤ 2 * (acc + c.count) then i else medianIdxGo total (acc + c.count) (i + 1) rest

/-- Insert a sample into a list sorted by the axis key, before the first
element with a strictly larger key (so after all elements with an equal or
smaller key that were originally to its left). -/
def insertSorted (axis : Axis) (c : ColorSample) : List ColorSample → List ColorSample
  | [] => [c]
  | d :: rest =>
    if sortKey axis d < sortKey axis c then d :: insertSorted axis c rest
    else c :: d :: rest

/-- Stable ascending sort by the axis key.  `box.colors.sort((a, b) => a.X -
b.X)` in the source is a stable ascending sort by the `X` key
(`Array.prototype.sort` is stable per ECMAScript); a stable sort's output is
uniquely determined by the key order plus the original order of equal keys,
and this structural insertion sort computes exactly that output. -/
def sortColors (axis : Axis) : List ColorSample → List ColorSample
  | [] => []
  | c :: rest => insertSorted axis c (sortColors axis rest)

/-- The normal split of a box with at least two samples (lines 221-248): sort
the samples along the split axis, cut after the count-weighted median, then
recompute bounds. -/
def splitMultiBox (box : Box) (axis : Axis) : Box × Box :=
  let sorted := sortColors axis box.colors
  let total := sorted.foldl (fun acc c => acc + c.count) 0
  let m := medianIdxGo total 0 0 sorted
  updateBounds box axis (sorted.take (m + 1)) (sorted.drop (m + 1))

/-- Split the box at `idx` and splice the two children in its place
(lines 174-297).  The `none` result models the `TypeError` the source throws
in the forced path when the selected box has no samples at all:
`box.colors[0]` is `undefined` and reading `.r`/`.g`/`.b` from it throws
(despite the comment on line 195 claiming this cannot happen). -/
def splitBoxAt (boxes : List Box) (idx : Nat) : Option (List Box) :=
  let box := boxes.getD idx default
  let axis := chooseAxis box
  if box.colors.length ≤ 1 then
    match box.colors.head? with
    | none => none
    | some color =>
      let c := forcedSplitChildren box axis color
      let lr := updateBounds box axis c.1 c.2
      some (boxes.take idx ++ [lr.1, lr.2] ++ boxes.drop (idx + 1))
  else
    let lr := splitMultiBox box axis
    some (boxes.take idx ++ [lr.1, lr.2] ++ boxes.drop (idx + 1))

/-- The round-robin duplication fallback (lines 154-171): keep pushing a copy
of `boxes[boxes.length % existingBoxes]` until there are `maxColors - 1`
boxes.  `existing` is the length captured before the fill loop; the fuel is
always at least the number of pushes needed. -/
def dupFill (existing maxColors : Nat) : Nat → List Box → List Box
  | 0, boxes => boxes
  | fuel + 1, boxes =>
    if boxes.length < maxColors - 1 then
      dupFill existing maxColors fuel (boxes ++ [boxes.getD (boxes.length % existing) default])
    else boxes

/-- The split loop of `medianCutQuantize` (lines 114-298):
`while (boxes.length < maxColors - 1)`, split the largest-volume multi-sample
box, else force-split the first box with any range, else duplicate-fill and
stop.  Each iteration that recurses grows `boxes` by exactly one, so with
fuel `maxColors` (how it is always called) the fuel never runs out before the
loop condition fails. -/
def medianCutLoop (maxColors : Nat) : Nat → List Box → Option (List Box)
  | 0, boxes => some boxes
  | fuel + 1, boxes =>
    if boxes.length < maxColors - 1 then
      match findLargestIdx boxes with
      | some i => (splitBoxAt boxes i).bind (medianCutLoop maxColors fuel)
      | none =>
        match findSplittableIdx boxes with
        | some i => (splitBoxAt boxes i).bind (medianCutLoop maxColors fuel)
        | none => some (dupFill boxes.length maxColors maxColors boxes)
    else some boxes

/-- `Math.round (a / b)` for natural `a` and positive natural `b`:
`Math.round x = ⌊x + 1/2⌋` for nonnegative `x`, and
`⌊a/b + 1/2⌋ = ⌊(2*a + b) / (2*b)⌋`, a natural division (exact; see
`natRoundDiv_eq_round` below).  The double division in the source is close
enough to the rational value that rounding agrees: the rational `a/b` is at
least `1/(2*b)` away from any half-integer it does not equal exactly, far
larger than the representation error at these magnitudes. -/
def natRoundDiv (a b : Nat) : Nat := (2 * a + b) / (2 * b)

/-- The count-weighted average of a box's samples, each channel rounded with
`Math.round` (lines 315-331).  An empty `colors` never reaches this function
(guarded in `addBox`), and every reachable sample has a positive count, so
`totalCount` is positive. -/
def boxAvg (colors : List ColorSample) : RGB :=
  let totalR : Nat := colors.foldl (fun acc c => acc + c.r * c.count) 0
  let totalG : Nat := colors.foldl (fun acc c => acc + c.g * c.count) 0
  let totalB : Nat := colors.foldl (fun acc c => acc + c.b * c.count) 0
  let totalCount : Nat := colors.foldl (fun acc c => acc + c.count) 0
  ⟨natRoundDiv totalR totalCount, natRoundDiv totalG totalCount,
    natRoundDiv totalB totalCount⟩

/-- One iteration of the palette-averaging loop (lines 305-339): an empty box
contributes a black placeholder (if there is room), a box whose average
rounds to exactly black is skipped, any other box appends its average. -/
def addBox (maxColors : Nat) (pal : List RGB) (box : Box) : List RGB :=
  if box.colors.isEmpty then
    if pal.length < maxColors then pal ++ [black] else pal
  else
    let avg := boxAvg box.colors
    if avg = black then pal else pal ++ [avg]

/-- The palette-averaging loop: `for (const box of boxes)` with the
`palette.length >= maxColors` break checked at the top of each iteration. -/
def addBoxes (maxColors : Nat) (pal : List RGB) : List Box → List RGB
  | [] => pal
  | box :: rest =>
    if maxColors ≤ pal.length then pal
    else addBoxes maxColors (addBox maxColors pal box) rest

/-- Palette assembly from the final boxes (lines 300-346): index 0 reserved
for black, then the box averages, then black filler up to `maxColors`, then
`palette.slice(0, maxColors)`. -/
def paletteOfBoxes (boxes : List Box) (maxColors : Nat) : List RGB :=
  let pal := addBoxes maxColors [black] boxes
  (pal ++ List.replicate (maxColors - pal.length) black).take maxColors

/-- `medianCutQuantize(data, maxColors)` (lines 75-347).  `none` models the
`TypeError` described at `splitBoxAt`; every non-throwing run returns
`some palette`. -/
def medianCutQuantize (data : List Nat) (maxColors : Nat) : Option (List RGB) :=
  let colors := collectColors data
  if colors.isEmpty then some (List.replicate maxColors black)
  else
    (medianCutLoop maxColors maxColors [⟨colors, 0, 255, 0, 255, 0, 255⟩]).bind fun boxes =>
      some (paletteOfBoxes boxes maxColors)

/-! ## Floyd-Steinberg dithering (`applyFloydSteinbergDithering`, lines 351-416) -/

/-- ECMAScript rounding for a `Uint8ClampedArray` store of a non-integer:
round to the nearest integer, ties to the even one. -/
def roundTiesEven (q : ℚ) : ℤ :=
  let f := q.floor
  let frac := q - f
  if frac < 1 / 2 then f
  else if 1 / 2 < frac then f + 1
  else if f % 2 = 0 then f else f + 1

/-- A `Uint8ClampedArray` store of a rational value the source has already
passed through `Math.max(0, Math.min(255, v))`; the store itself clamps to
`[0, 255]` and rounds ties to even. -/
def clampRoundByte (q : ℚ) : Nat := (roundTiesEven (max 0 (min 255 q))).toNat

/-- A `Uint8ClampedArray` store of a nonnegative integer: clamp to 255. -/
def clampByte (v : Nat) : Nat := min v 255

/-- `distributeError(x1, y1, weight)` (lines 387-405): inside the image and
only onto a pixel whose alpha is at least 128, add `err * weight` to each of
the three color channels, clamping each store to `[0, 255]`.  Coordinates are
`ℤ` because the source calls this with `x - 1`. -/
def distributeError (w h : Nat) (buf : List Nat) (x1 y1 : ℤ)
    (errR errG errB wgt : ℚ) : List Nat :=
  if 0 ≤ x1 ∧ x1 < w ∧ 0 ≤ y1 ∧ y1 < h then
    let idx := (y1 * w + x1).toNat * 4
    if 128 ≤ buf.getD (idx + 3) 0 then
      let buf := buf.set idx (clampRoundByte ((buf.getD idx 0 : ℚ) + errR * wgt))
      let buf := buf.set (idx + 1) (clampRoundByte ((buf.getD (idx + 1) 0 : ℚ) + errG * wgt))
      let buf := buf.set (idx + 2) (clampRoundByte ((buf.getD (idx + 2) 0 : ℚ) + errB * wgt))
      buf
    else buf
  else buf

/-- The body of the dithering double loop for one pixel (lines 362-411): skip
transparent pixels; otherwise overwrite the pixel with its matched palette
color and push the quantization error right, bottom-left, bottom and
bottom-right.  `pal.getD _ black` models `colorArray[colorIndex]`: in every
use the index is in range (the matcher returns an index below the palette
length). -/
def ditherPixel (w h : Nat) (pal : List RGB) (fcc : Nat → Nat → Nat → Nat)
    (buf : List Nat) (x y : Nat) : List Nat :=
  let i := (y * w + x) * 4
  if buf.getD (i + 3) 0 < 128 then buf
  else
    let oldR := buf.getD i 0
    let oldG := buf.getD (i + 1) 0
    let oldB := buf.getD (i + 2) 0
    let pc := pal.getD (fcc oldR oldG oldB) black
    let buf := buf.set i (clampByte pc.r)
    let buf := buf.set (i + 1) (clampByte pc.g)
    let buf := buf.set (i + 2) (clampByte pc.b)
    let errR : ℚ := (oldR : ℚ) - pc.r
    let errG : ℚ := (oldG : ℚ) - pc.g
    let errB : ℚ := (oldB : ℚ) - pc.b
    let buf := distributeError w h buf ((x : ℤ) + 1) y errR errG errB (7 / 16)
    let buf := distributeError w h buf ((x : ℤ) - 1) ((y : ℤ) + 1) errR errG errB (3 / 16)
    let buf := distributeError w h buf x ((y : ℤ) + 1) errR errG errB (5 / 16)
    let buf := distributeError w h buf ((x : ℤ) + 1) ((y : ℤ) + 1) errR errG errB (1 / 16)
    buf

/-- Row-major pixel traversal order of the dithering loops
(`for y … for x …`). -/
def pixelTraversal (w h : Nat) : List (Nat × Nat) :=
  (List.range h).flatMap fun y => (List.range w).map fun x => (x, y)

/-- `applyFloydSteinbergDithering(data, width, height, colorArray,
findClosestColor)`: the source copies `data` into a fresh
`Uint8ClampedArray`, mutates only the copy, and returns it; this fold
computes the copy's final contents (the caller's buffer is untouched). -/
def applyFloydSteinbergDithering (data : List Nat) (w h : Nat) (pal : List RGB)
    (fcc : Nat → Nat → Nat → Nat) : List Nat :=
  (pixelTraversal w h).foldl (fun buf p => ditherPixel w h pal fcc buf p.1 p.2) data

/-! ## Pixel requantizer (`quantizeImageData`, lines 535-566) -/

/-- `quantizeImageData(imageData, colorArray, findClosestColor)`: a fresh
`ImageData` where a transparent pixel becomes `(0, 0, 0, alpha)` and an
opaque pixel becomes its matched palette color with its alpha.  All stores go
into a `Uint8ClampedArray`. -/
def quantizeImageData (img : Image) (pal : List RGB)
    (fcc : Nat → Nat → Nat → Nat) : Image :=
  ⟨img.width, img.height,
    (List.range img.height).flatMap fun y =>
      (List.range img.width).flatMap fun x =>
        let i := (y * img.width + x) * 4
        let a := img.data.getD (i + 3) 0
        if a < 128 then [0, 0, 0, clampByte a]
        else
          let c := pal.getD
            (fcc (img.data.getD i 0) (img.data.getD (i + 1) 0) (img.data.getD (i + 2) 0))
            black
          [clampByte c.r, clampByte c.g, clampByte c.b, clampByte a]⟩

/-! ## BMP binary encoders (`encodeBMP`, `encodeBMP8Bit`, `encodeBMP4Bit`) -/

/-- `DataView.setUint8` wraps modulo 256. -/
def byte (v : Nat) : Nat := v % 256

/-- `DataView.setUint16(…, true)`: two little-endian bytes. -/
def le16 (v : Nat) : List Nat := [v % 256, v / 2 ^ 8 % 256]

/-- `DataView.setUint32(…, true)`: four little-endian bytes. -/
def le32 (v : Nat) : List Nat :=
  [v % 256, v / 2 ^ 8 % 256, v / 2 ^ 16 % 256, v / 2 ^ 24 % 256]

/-- `DataView.setInt32(…, true)`: four little-endian bytes of the two's
complement representation (used for the negated height). -/
def le32Int (v : ℤ) : List Nat := le32 (v.emod (2 ^ 32)).toNat

/-- Padded row byte count: `Math.floor((bits * width + 31) / 32) * 4`. -/
def rowSize (bits w : Nat) : Nat := ((bits * w + 31) / 32) * 4

/-- The 54 header bytes every encoder writes at fixed offsets 0-53 (14-byte
file header followed by the 40-byte BITMAPINFOHEADER); the three encoders
differ only in the argument values. -/
def bmpHeader (fileSize pixelOffset w h bpp pixelArraySize palCount : Nat) : List Nat :=
  [0x42, 0x4d] ++ le32 fileSize ++ le32 0 ++ le32 pixelOffset ++
    le32 40 ++ le32Int w ++ le32Int (-(h : ℤ)) ++ le16 1 ++ le16 bpp ++
    le32 0 ++ le32 pixelArraySize ++ le32Int 2835 ++ le32Int 2835 ++
    le32 palCount ++ le32 palCount

/-- The 24-bit pixel array (lines 611-628): per row, `B,G,R` for every pixel
(no alpha gate) followed by the zero padding. -/
def pixelData24 (img : Image) : List Nat :=
  (List.range img.height).flatMap fun y =>
    ((List.range img.width).flatMap fun x =>
      let i := (y * img.width + x) * 4
      [byte (img.data.getD (i + 2) 0), byte (img.data.getD (i + 1) 0),
        byte (img.data.getD i 0)]) ++
    List.replicate (rowSize 24 img.width - 3 * img.width) 0

/-- `encodeBMP(imageData)` (lines 577-631): the full byte content of the
returned blob. -/
def encodeBMP (img : Image) : List Nat :=
  bmpHeader (54 + rowSize 24 img.width * img.height) 54 img.width img.height 24
    (rowSize 24 img.width * img.height) 0 ++ pixelData24 img

/-- The palette table written after the header: `n` entries of
`B, G, R, 0`, with `colorArray[i] || {r:0,g:0,b:0}` modelled by
`pal.getD i black`. -/
def paletteBytes (pal : List RGB) (n : Nat) : List Nat :=
  (List.range n).flatMap fun i =>
    let c := pal.getD i black
    [byte c.b, byte c.g, byte c.r, 0]

/-- The index-assignment loop shared verbatim by `encodeBMP8Bit`
(lines 660-672) and `encodeBMP4BitFromData` (lines 770-782): a pixel whose
alpha is below 128 gets index 0, any other pixel gets its matched palette
index. -/
def pixelIndex (data : List Nat) (w : Nat) (fcc : Nat → Nat → Nat → Nat)
    (x y : Nat) : Nat :=
  let i := (y * w + x) * 4
  if data.getD (i + 3) 0 < 128 then 0
  else fcc (data.getD i 0) (data.getD (i + 1) 0) (data.getD (i + 2) 0)

/-- The 8-bit pixel array (lines 714-724): one index byte per pixel plus row
padding. -/
def pixelData8 (w h : Nat) (idx : Nat → Nat → Nat) : List Nat :=
  (List.range h).flatMap fun y =>
    ((List.range w).map fun x => byte (idx x y)) ++
    List.replicate (rowSize 8 w - w) 0

/-- `encodeBMP8Bit(imageData, dither)` (lines 633-727): build the 256-color
palette, optionally dither, then emit header, palette and index bytes.
`none` propagates the palette builder's `TypeError`. -/
def encodeBMP8Bit (img : Image) (dither : Bool) : Option (List Nat) :=
  (medianCutQuantize img.data 256).bind fun pal =>
    let fcc := findClosestColor pal
    let d :=
      if dither then applyFloydSteinbergDithering img.data img.width img.height pal fcc
      else img.data
    let pas := rowSize 8 img.width * img.height
    some (bmpHeader (54 + 1024 + pas) (54 + 1024) img.width img.height 8 pas 256 ++
      paletteBytes pal 256 ++
      pixelData8 img.width img.height (pixelIndex d img.width fcc))

/-- The 4-bit pixel array (lines 824-839): the packing loop `for (x = 0; x <
width; x += 2)` emits `(idx1 << 4) | idx2` with `idx2 = 0` past the right
edge, then the row padding. -/
def pixelData4 (w h : Nat) (idx : Nat → Nat → Nat) : List Nat :=
  (List.range h).flatMap fun y =>
    ((List.range ((w + 1) / 2)).map fun k =>
      byte ((idx (2 * k) y) <<< 4 ||| (if 2 * k + 1 < w then idx (2 * k + 1) y else 0))) ++
    List.replicate (rowSize 4 w - (w + 1) / 2) 0

/-- `encodeBMP4BitFromData(imageData, colorArray, findClosestColor)`
(lines 755-842); the callers always pass the palette and matcher, so the
rebuild-if-missing branch is never taken. -/
def encodeBMP4BitFromData (img : Image) (pal : List RGB)
    (fcc : Nat → Nat → Nat → Nat) : List Nat :=
  let pas := rowSize 4 img.width * img.height
  bmpHeader (54 + 64 + pas) (54 + 64) img.width img.height 4 pas 16 ++
    paletteBytes pal 16 ++
    pixelData4 img.width img.height (pixelIndex img.data img.width fcc)

/-- `encodeBMP4Bit(imageData, aggressive)` (lines 729-753). -/
def encodeBMP4Bit (img : Image) (aggressive : Bool) : Option (List Nat) :=
  (medianCutQuantize img.data 16).bind fun pal =>
    let fcc := findClosestColor pal
    if aggressive then
      let d := applyFloydSteinbergDithering img.data img.width img.height pal fcc
      some (encodeBMP4BitFromData ⟨img.width, img.height, d⟩ pal fcc)
    else some (encodeBMP4BitFromData img pal fcc)

/-! ## Preview functions (`preview.js`) -/

/-- `generatePreview24Bit(imageData)`: a fresh copy of the pixel buffer. -/
def generatePreview24Bit (img : Image) : Image :=
  ⟨img.width, img.height, img.data⟩

/-- `generatePreview8Bit(imageData, dither)` (preview.js lines 19-47): same
palette build and optional dithering as the encoder, then requantization. -/
def generatePreview8Bit (img : Image) (dither : Bool) : Option Image :=
  (medianCutQuantize img.data 256).bind fun pal =>
    let fcc := findClosestColor pal
    if dither then
      let d := applyFloydSteinbergDithering img.data img.width img.height pal fcc
      some (quantizeImageData ⟨img.width, img.height, d⟩ pal fcc)
    else some (quantizeImageData img pal fcc)

/-- `generatePreview4Bit(imageData, aggressive)` (preview.js lines 49-80). -/
def generatePreview4Bit (img : Image) (aggressive : Bool) : Option Image :=
  (medianCutQuantize img.data 16).bind fun pal =>
    let fcc := findClosestColor pal
    if aggressive then
      let d := applyFloydSteinbergDithering img.data img.width img.height pal fcc
      some (quantizeImageData ⟨img.width, img.height, d⟩ pal fcc)
    else some (quantizeImageData img pal fcc)

/-! ## Decoding (readers of the encoded byte layout) -/

/-- The RGB stored at pixel `(x, y)` of a 24-bit file: the `B, G, R` bytes at
offset `54 + y * rowSize + 3 * x`. -/
def decodeBMP24At (f : List Nat) (w x y : Nat) : RGB :=
  let off := 54 + y * rowSize 24 w + 3 * x
  ⟨f.getD (off + 2) 0, f.getD (off + 1) 0, f.getD off 0⟩

/-- Palette entry `i` of an indexed file: the `B, G, R, 0` quadruple at
offset `54 + 4 * i`. -/
def decodePaletteEntry (f : List Nat) (i : Nat) : RGB :=
  ⟨f.getD (54 + 4 * i + 2) 0, f.getD (54 + 4 * i + 1) 0, f.getD (54 + 4 * i) 0⟩

/-- The RGB an 8-bit BMP decoder yields at `(x, y)`: the palette entry
referenced by the index byte at `54 + 1024 + y * rowSize + x`. -/
def decodeBMP8At (f : List Nat) (w x y : Nat) : RGB :=
  decodePaletteEntry f (f.getD (54 + 1024 + y * rowSize 8 w + x) 0)

/-- The RGB a 4-bit BMP decoder yields at `(x, y)`: the palette entry
referenced by the high (even `x`) or low (odd `x`) nibble of the byte at
`54 + 64 + y * rowSize + x / 2`. -/
def decodeBMP4At (f : List Nat) (w x y : Nat) : RGB :=
  let v := f.getD (54 + 64 + y * rowSize 4 w + x / 2) 0
  decodePaletteEntry f (if x % 2 = 0 then v / 16 else v % 16)

/-- The three bit depths of the pipeline. -/
inductive Depth
  | d24
  | d8
  | d4
deriving DecidableEq, Repr

/-- The preview function for a depth (the flag is the dither/aggressive
argument; the 24-bit preview takes none). -/
def previewAt : Depth → Image → Bool → Option Image
  | .d24, img, _ => some (generatePreview24Bit img)
  | .d8, img, flag => generatePreview8Bit img flag
  | .d4, img, flag => generatePreview4Bit img flag

/-- The encode function for a depth. -/
def encodeAt : Depth → Image → Bool → Option (List Nat)
  | .d24, img, _ => some (encodeBMP img)
  | .d8, img, flag => encodeBMP8Bit img flag
  | .d4, img, flag => encodeBMP4Bit img flag

/-- The decoder for a depth. -/
def decodeAt : Depth → List Nat → Nat → Nat → Nat → RGB
  | .d24, f, w, x, y => decodeBMP24At f w x y
  | .d8, f, w, x, y => decodeBMP8At f w x y
  | .d4, f, w, x, y => decodeBMP4At f w x y

/-- The RGB of pixel `(x, y)` in a pixel buffer. -/
def imagePixelRGB (P : Image) (x y : Nat) : RGB :=
  ⟨P.data.getD ((y * P.width + x) * 4) 0,
    P.data.getD ((y * P.width + x) * 4 + 1) 0,
    P.data.getD ((y * P.width + x) * 4 + 2) 0⟩

/-- Shorthand: distance from the query to palette slot `k`. -/
def slotDist (pal : List RGB) (r g b k : Nat) : ℤ :=
  distToEntry r g b (pal.getD k black)

/-! ## IEEE-754 binary64 model of the floating-point distance

JS numbers are IEEE-754 binary64: every finite double is a dyadic rational,
and each arithmetic operation rounds its exact rational result to the nearest
representable double (53-bit significand, round-to-nearest, ties-to-even);
`Math.sqrt` is correctly rounded.  `fl` below is exactly that rounding on ℚ
and `flSqrt` the correctly rounded square root, so the `…FP` functions
compute, as exact rationals, precisely the doubles the program computes.
Subnormals and overflow never arise here: every non-zero value in this
pipeline lies between `0.01` and `2^23`, far inside the normal range.
All arithmetic is phrased over `Rat.divInt` and integer operations. -/

/-- Floor of `log2 n` for `n ≥ 1` (fuel-based structural recursion). -/
def log2Fuel : Nat → Nat → Nat
  | 0, _ => 0
  | fuel + 1, n => if 2 ≤ n then log2Fuel fuel (n / 2) + 1 else 0

def natLog2 (n : Nat) : Nat := log2Fuel n n

/-- Bisection step for the integer square root: the invariant is
`lo² ≤ n < hi²`. -/
def natSqrtGo (n : Nat) : Nat → Nat → Nat → Nat
  | 0, lo, _ => lo
  | fuel + 1, lo, hi =>
    if hi ≤ lo + 1 then lo
    else
      let mid := (lo + hi) / 2
      if mid * mid ≤ n then natSqrtGo n fuel mid hi else natSqrtGo n fuel lo mid

/-- `⌊√n⌋` by bisection (the fuel bounds the number of halvings of `[0, n+1]`). -/
def natSqrt (n : Nat) : Nat := natSqrtGo n (2 * natLog2 (n + 1) + 4) 0 (n + 1)

/-- Is `2^E ≤ q`?  (Integer cross-multiplied comparison.) -/
def le2pow (E : ℤ) (q : ℚ) : Bool :=
  if 0 ≤ E then decide ((q.den : ℤ) * 2 ^ E.toNat ≤ q.num)
  else decide ((q.den : ℤ) ≤ q.num * 2 ^ (-E).toNat)

/-- `⌊log2 q⌋` for a positive rational: the unique `E` with
`2^E ≤ q < 2^(E+1)`, located from the bit lengths of numerator and
denominator and fixed up by direct comparison. -/
def ratLog2 (q : ℚ) : ℤ :=
  let E0 : ℤ := (natLog2 q.num.toNat : ℤ) - natLog2 q.den
  if le2pow E0 q then (if le2pow (E0 + 1) q then E0 + 1 else E0) else E0 - 1

/-- Round the nonnegative rational `a / b` to the nearest integer, ties to
even. -/
def rndNE (a b : Nat) : Nat :=
  let m := a / b
  let r := a % b
  if 2 * r < b then m
  else if b < 2 * r then m + 1
  else if m % 2 = 0 then m else m + 1

/-- Round a positive rational to the nearest binary64 value: scale into the
binade `[2^52, 2^53)`, round the 53-bit significand to nearest (ties to
even), and scale back. -/
def flPos (q : ℚ) : ℚ :=
  let e : ℤ := ratLog2 q - 52
  let p := if 0 ≤ e then (q.num.toNat, q.den * 2 ^ e.toNat)
    else (q.num.toNat * 2 ^ (-e).toNat, q.den)
  let m := rndNE p.1 p.2
  if 0 ≤ e then Rat.divInt ((m : ℤ) * 2 ^ e.toNat) 1
  else Rat.divInt (m : ℤ) (2 ^ (-e).toNat)

/-- IEEE-754 binary64 rounding of an exact rational (round to nearest, ties
to even); rounding is sign-symmetric. -/
def fl (q : ℚ) : ℚ :=
  if q.num = 0 then 0 else if q.num < 0 then Rat.neg (flPos (Rat.neg q)) else flPos q

/-- The binary64 value nearest to `√q` (IEEE requires `Math.sqrt` to be
correctly rounded): locate the result's binade from `⌊log2 q⌋`, take the
floor of the scaled square root via `natSqrt`, and pick the nearer of the
two neighbouring significands by comparing `q` with the square of their
midpoint. -/
def flSqrt (q : ℚ) : ℚ :=
  if q.num ≤ 0 then 0
  else
    let F : ℤ := Int.fdiv (ratLog2 q) 2
    let sh : ℤ := 52 - F
    let p := if 0 ≤ sh then (q.num.toNat * 4 ^ sh.toNat, q.den)
      else (q.num.toNat, q.den * 4 ^ (-sh).toNat)
    let m0 := natSqrt (p.1 * p.2) / p.2
    let m :=
      if (2 * m0 + 1) ^ 2 * p.2 < 4 * p.1 then m0 + 1
      else if 4 * p.1 < (2 * m0 + 1) ^ 2 * p.2 then m0
      else if m0 % 2 = 0 then m0 else m0 + 1
    if 0 ≤ F - 52 then Rat.divInt ((m : ℤ) * 2 ^ (F - 52).toNat) 1
    else Rat.divInt (m : ℤ) (2 ^ (52 - F).toNat)

/-- A double times an exact integer, rounded — `q * z` written over `divInt`
(`mulIntFP_eq` below proves it equals `fl (q * z)`). -/
def mulIntFP (q : ℚ) (z : ℤ) : ℚ := fl (Rat.divInt (q.num * z) q.den)

/-- Double addition: the exact sum, rounded (`addFP_eq` below proves it
equals `fl (q + r)`). -/
def addFP (q r : ℚ) : ℚ :=
  fl (Rat.divInt (q.num * r.den + r.num * q.den) (q.den * r.den))

/-- The doubles denoted by the literals `0.3`, `0.59`, `0.11` (none of which
is exactly representable). -/
def c03 : ℚ := fl (Rat.divInt 3 10)

def c059 : ℚ := fl (Rat.divInt 59 100)

def c011 : ℚ := fl (Rat.divInt 11 100)

/-- The double the source's `perceptualDistance` (lines 64-71) actually
computes: `Math.sqrt(0.3 * dr * dr + 0.59 * dg * dg + 0.11 * db * db)` with
JS's left-associated evaluation, one rounding per operation.  The channel
differences are exact (integers of magnitude ≤ 255). -/
def perceptualDistanceFP (r1 g1 b1 r2 g2 b2 : Nat) : ℚ :=
  let dr : ℤ := (r1 : ℤ) - r2
  let dg : ℤ := (g1 : ℤ) - g2
  let db : ℤ := (b1 : ℤ) - b2
  let t1 := mulIntFP (mulIntFP c03 dr) dr
  let t2 := mulIntFP (mulIntFP c059 dg) dg
  let t3 := mulIntFP (mulIntFP c011 db) db
  flSqrt (addFP (addFP t1 t2) t3)

/-- Floating-point distance from a query color to a palette entry. -/
def distToEntryFP (r g b : Nat) (c : RGB) : ℚ :=
  perceptualDistanceFP r g b c.r c.g c.b

/-- The loop body of `findClosestColor` (lines 482-500) over the doubles the
program compares: same scan as `findClosestColorGo`, with `dist < minDist`
the IEEE comparison of the computed doubles (on finite doubles it is the
rational order). -/
def findClosestColorFPGo (r g b : Nat) : List RGB → Nat → Option ℚ → Nat → Nat
  | [], _, _, best => best
  | c :: rest, i, minD, best =>
    let d := distToEntryFP r g b c
    match minD with
    | none => findClosestColorFPGo r g b rest (i + 1) (some d) i
    | some m =>
      if d < m then findClosestColorFPGo r g b rest (i + 1) (some d) i
      else findClosestColorFPGo r g b rest (i + 1) (some m) best

/-- The matcher over the computed doubles. -/
def findClosestColorFP (pal : List RGB) (r g b : Nat) : Nat :=
  findClosestColorFPGo r g b pal 0 none 0

/-- Shorthand: floating-point distance from the query to palette slot `k`. -/
def slotDistFP (pal : List RGB) (r g b k : Nat) : ℚ :=
  distToEntryFP r g b (pal.getD k black)

/-- The buffer `encodeBMP8Bit` assigns indices from: the dithered copy when
`dither` is set, the caller's buffer otherwise (lines 641-654). -/
def indexBuffer8 (img : Image) (dither : Bool) (pal : List RGB) : List Nat :=
  if dither then
    applyFloydSteinbergDithering img.data img.width img.height pal (findClosestColor pal)
  else img.data

/-- The buffer `encodeBMP4Bit` assigns indices from (lines 737-752). -/
def indexBuffer4 (img : Image) (aggressive : Bool) (pal : List RGB) : List Nat :=
  if aggressive then
    applyFloydSteinbergDithering img.data img.width img.height pal (findClosestColor pal)
  else img.data

/-- A 1×1 fully opaque red image (the spec's 24-bit scenario input). -/
def redImg : Image := ⟨1, 1, [255, 0, 0, 255]⟩

/-- A 2×2 uniform opaque gray image (the spec's 8-bit scenario input). -/
def gray2x2 : Image := ⟨2, 2,
  [128, 128, 128, 255, 128, 128, 128, 255, 128, 128, 128, 255, 128, 128, 128, 255]⟩

/-- Three opaque pixels — one `(0,0,0)`, two `(1,0,0)` — on which the palette
builder's force-split fallback selects a sample-less box and crashes. -/
def crashData : List Nat := [0, 0, 0, 255, 1, 0, 0, 255, 1, 0, 0, 255]

/-- Invariant tying a working buffer of the dithering loop to the original
buffer: all alpha bytes are unchanged, and every byte of a transparent pixel
is unchanged. -/
def BufInv (data buf : List Nat) : Prop :=
  (∀ q, buf.getD (4 * q + 3) 0 = data.getD (4 * q + 3) 0) ∧
    (∀ p c, c < 4 → data.getD (4 * p + 3) 0 < 128 →
      buf.getD (4 * p + c) 0 = data.getD (4 * p + c) 0)

/-- A two-sample box on which the split happens along `r`: every left-child
sample has `r = 5`, yet the left child keeps the parent's `rMin = 0` — the
left child's minimum on the split axis is inherited, not recomputed from its
own samples. -/
def cbox : Box := ⟨[⟨5, 0, 0, 1⟩, ⟨10, 0, 0, 1⟩], 0, 255, 0, 255, 0, 255⟩

/-- What the amended C4 asserts of the multi-sample split of a box: the left
child is nonempty, its upper bound on the split axis is recomputed as its own
samples' maximum while its lower bound and the other two axes inherit the
parent's values; a nonempty right child's lower bound on the split axis is
recomputed as its own samples' minimum while its upper bound and the other
axes inherit the parent's; an empty right child keeps all the parent's
bounds. -/
def C4Statement (box : Box) : Prop :=
  (splitMultiBox box (chooseAxis box)).1.colors ≠ [] ∧
    axisMin (chooseAxis box) (splitMultiBox box (chooseAxis box)).1 =
      axisMin (chooseAxis box) box ∧
    (∀ a, a ≠ chooseAxis box →
      axisMin a (splitMultiBox box (chooseAxis box)).1 = axisMin a box ∧
        axisMax a (splitMultiBox box (chooseAxis box)).1 = axisMax a box) ∧
    (∀ s ∈ (splitMultiBox box (chooseAxis box)).1.colors,
      sortKey (chooseAxis box) s ≤
        axisMax (chooseAxis box) (splitMultiBox box (chooseAxis box)).1) ∧
    (∃ s ∈ (splitMultiBox box (chooseAxis box)).1.colors,
      sortKey (chooseAxis box) s =
        axisMax (chooseAxis box) (splitMultiBox box (chooseAxis box)).1) ∧
    ((splitMultiBox box (chooseAxis box)).2.colors = [] →
      ∀ a, axisMin a (splitMultiBox box (chooseAxis box)).2 = axisMin a box ∧
        axisMax a (splitMultiBox box (chooseAxis box)).2 = axisMax a box) ∧
    ((splitMultiBox box (chooseAxis box)).2.colors ≠ [] →
      axisMax (chooseAxis box) (splitMultiBox box (chooseAxis box)).2 =
          axisMax (chooseAxis box) box ∧
        (∀ a, a ≠ chooseAxis box →
          axisMin a (splitMultiBox box (chooseAxis box)).2 = axisMin a box ∧
            axisMax a (splitMultiBox box (chooseAxis box)).2 = axisMax a box) ∧
        (∀ s ∈ (splitMultiBox box (chooseAxis box)).2.colors,
          axisMin (chooseAxis box) (splitMultiBox box (chooseAxis box)).2 ≤
            sortKey (chooseAxis box) s) ∧
        (∃ s ∈ (splitMultiBox box (chooseAxis box)).2.colors,
          sortKey (chooseAxis box) s =
            axisMin (chooseAxis box) (splitMultiBox box (chooseAxis box)).2))

/-- The palette the builder produces for the 1×1 red image at 16 colors. -/
def redPal : List RGB := black :: List.replicate 15 ⟨255, 0, 0⟩

/-! ## Indexing toolkit: reading bytes back out of concatenated chunks -/

/-- Justification for `natRoundDiv`: it is exactly `round (a / b)` on `ℚ`
whenever `b` is positive. -/
theorem natRoundDiv_eq_round (a b : Nat) (hb : 0 < b) :
    (natRoundDiv a b : ℤ) = round ((a : ℚ) / b) := by
  have hb2 : (0 : ℚ) < ((2 * b : Nat) : ℚ) := by
    have : 0 < 2 * b := by omega
    exact_mod_cast this
  rw [round_eq, natRoundDiv]
  rw [show ((a : ℚ) / b + 1 / 2) = ((2 * a + b : Nat) : ℚ) / ((2 * b : Nat) : ℚ) by
    have hbq : ((b : ℚ)) ≠ 0 := by exact_mod_cast hb.ne'
    push_cast
    field_simp
    ring]
  rw [eq_comm, Int.floor_eq_iff]
  constructor
  · rw [le_div_iff₀ hb2]
    exact_mod_cast Nat.div_mul_le_self (2 * a + b) (2 * b)
  · rw [div_lt_iff₀ hb2]
    have h1 : (2 * a + b) = 2 * b * ((2 * a + b) / (2 * b)) + (2 * a + b) % (2 * b) :=
      (Nat.div_add_mod _ _).symm
    have h2 : (2 * a + b) % (2 * b) < 2 * b := Nat.mod_lt _ (by omega)
    have h3 : (2 * a + b) < ((2 * a + b) / (2 * b) + 1) * (2 * b) := by
      calc (2 * a + b) = 2 * b * ((2 * a + b) / (2 * b)) + (2 * a + b) % (2 * b) := h1
      _ < 2 * b * ((2 * a + b) / (2 * b)) + 2 * b := by omega
      _ = ((2 * a + b) / (2 * b) + 1) * (2 * b) := by ring
    exact_mod_cast h3

theorem length_flatten_uniform {α : Type} (L : List (List α)) (n : Nat)
    (h : ∀ l ∈ L, l.length = n) : L.flatten.length = L.length * n := by
  induction L with
  | nil => simp
  | cons l L ih =>
    simp only [List.flatten_cons, List.length_append, List.length_cons]
    rw [h l (by simp), ih (fun l' hl' => h l' (by simp [hl']))]
    ring

theorem getD_flatten_uniform {α : Type} (d : α) (L : List (List α)) (n : Nat)
    (h : ∀ l ∈ L, l.length = n) (i j : Nat) (hi : i < L.length) (hj : j < n) :
    L.flatten.getD (i * n + j) d = (L.getD i []).getD j d := by
  induction L generalizing i with
  | nil => simp at hi
  | cons l L ih =>
    cases i with
    | zero =>
      simp only [List.flatten_cons, List.getD_cons_zero, Nat.zero_mul, Nat.zero_add]
      exact List.getD_append l L.flatten d j (by rw [h l (by simp)]; exact hj)
    | succ i =>
      have hl : l.length = n := h l (by simp)
      have harith : (i + 1) * n + j = l.length + (i * n + j) := by rw [hl]; ring
      simp only [List.flatten_cons, List.getD_cons_succ, harith]
      rw [List.getD_append_right l L.flatten d _ (Nat.le_add_right _ _), Nat.add_sub_cancel_left]
      exact ih (fun l' hl' => h l' (by simp [hl'])) i (by simpa using hi)

theorem getD_map_range {α : Type} (d : α) (f : Nat → α) (m i : Nat) (hi : i < m) :
    ((List.range m).map f).getD i d = f i := by
  rw [List.getD_eq_getElem?_getD, List.getElem?_map, List.getElem?_range hi]
  rfl

theorem getD_flatMap_range {α : Type} (d : α) (f : Nat → List α) (m n : Nat)
    (hlen : ∀ i < m, (f i).length = n) (i j : Nat) (hi : i < m) (hj : j < n) :
    ((List.range m).flatMap f).getD (i * n + j) d = (f i).getD j d := by
  rw [List.flatMap_def]
  have h : ∀ l ∈ (List.range m).map f, l.length = n := by
    intro l hl
    obtain ⟨k, hk, rfl⟩ := List.mem_map.mp hl
    exact hlen k (List.mem_range.mp hk)
  rw [getD_flatten_uniform d _ n h i j (by simpa using hi) hj]
  congr 1
  exact getD_map_range [] f m i hi

theorem length_flatMap_range {α : Type} (f : Nat → List α) (m n : Nat)
    (hlen : ∀ i < m, (f i).length = n) :
    ((List.range m).flatMap f).length = m * n := by
  rw [List.flatMap_def]
  have h : ∀ l ∈ (List.range m).map f, l.length = n := by
    intro l hl
    obtain ⟨k, hk, rfl⟩ := List.mem_map.mp hl
    exact hlen k (List.mem_range.mp hk)
  rw [length_flatten_uniform _ n h]
  simp

theorem bmpHeader_length (fileSize pixelOffset w h bpp pixelArraySize palCount : Nat) :
    (bmpHeader fileSize pixelOffset w h bpp pixelArraySize palCount).length = 54 := by
  simp [bmpHeader, le16, le32, le32Int]

theorem paletteBytes_length (pal : List RGB) (n : Nat) :
    (paletteBytes pal n).length = n * 4 :=
  length_flatMap_range _ n 4 (fun _ _ => rfl)

/-! ## The nearest-color matcher: specification of the linear scan -/

theorem findClosestColorGo_spec (r g b : Nat) (pal : List RGB) :
    ∀ (l : List RGB) (i best : Nat) (m : ℤ),
      pal.drop i = l → i + l.length = pal.length → best < i →
      slotDist pal r g b best = m →
      (∀ k, k < i → m ≤ slotDist pal r g b k) →
      (∀ k, k < i → slotDist pal r g b k = m → best ≤ k) →
      findClosestColorGo r g b l i (some m) best < pal.length ∧
      (∀ k, k < pal.length →
        slotDist pal r g b (findClosestColorGo r g b l i (some m) best) ≤ slotDist pal r g b k) ∧
      (∀ k, k < pal.length →
        slotDist pal r g b k = slotDist pal r g b (findClosestColorGo r g b l i (some m) best) →
        findClosestColorGo r g b l i (some m) best ≤ k) := by
  intro l
  induction l with
  | nil =>
    intro i best m hdrop hlen hbest hm hmin hfirst
    simp only [findClosestColorGo]
    simp only [List.length_nil, Nat.add_zero] at hlen
    subst hlen
    exact ⟨hbest, fun k hk => hm ▸ hmin k hk, fun k hk hdk => hfirst k hk (hm ▸ hdk)⟩
  | cons c rest ih =>
    intro i best m hdrop hlen hbest hm hmin hfirst
    have hc : pal.getD i black = c := by
      rw [List.getD_eq_getElem?_getD]
      have h1 : pal[i]? = (pal.drop i)[0]? := by rw [List.getElem?_drop, Nat.add_zero]
      rw [h1, hdrop]
      simp
    have hdropsucc : pal.drop (i + 1) = rest := by
      have : pal.drop (i + 1) = (pal.drop i).drop 1 := by
        rw [List.drop_drop, Nat.add_comm]
      rw [this, hdrop]
      rfl
    have hlensucc : (i + 1) + rest.length = pal.length := by
      simp only [List.length_cons] at hlen
      omega
    have hdi : distToEntry r g b c = slotDist pal r g b i := by
      rw [slotDist, hc]
    simp only [findClosestColorGo]
    by_cases hlt : distToEntry r g b c < m
    · simp only [if_pos hlt]
      apply ih (i + 1) i (distToEntry r g b c) hdropsucc hlensucc (Nat.lt_succ_self i) hdi.symm
      · intro k hk
        rcases Nat.lt_succ_iff_lt_or_eq.mp hk with hk' | rfl
        · exact le_of_lt (lt_of_lt_of_le hlt (hmin k hk'))
        · rw [← hdi]
      · intro k hk hdk
        rcases Nat.lt_succ_iff_lt_or_eq.mp hk with hk' | rfl
        · exact absurd hdk (by have := hmin k hk'; rw [hdi] at hlt; omega)
        · exact le_refl _
    · simp only [if_neg hlt]
      apply ih (i + 1) best m hdropsucc hlensucc (Nat.lt_succ_of_lt hbest) hm
      · intro k hk
        rcases Nat.lt_succ_iff_lt_or_eq.mp hk with hk' | rfl
        · exact hmin k hk'
        · rw [← hdi]; omega
      · intro k hk hdk
        rcases Nat.lt_succ_iff_lt_or_eq.mp hk with hk' | rfl
        · exact hfirst k hk' hdk
        · exact le_of_lt hbest

/-- The matcher returns the first index of minimal (scaled, squared)
perceptual distance. -/
theorem findClosestColor_spec (pal : List RGB) (r g b : Nat) (hne : pal ≠ []) :
    findClosestColor pal r g b < pal.length ∧
    (∀ k, k < pal.length →
      slotDist pal r g b (findClosestColor pal r g b) ≤ slotDist pal r g b k) ∧
    (∀ k, k < pal.length →
      slotDist pal r g b k = slotDist pal r g b (findClosestColor pal r g b) →
      findClosestColor pal r g b ≤ k) := by
  obtain ⟨c, rest, rfl⟩ := List.exists_cons_of_ne_nil hne
  have hc : (c :: rest).getD 0 black = c := rfl
  have h0 : findClosestColor (c :: rest) r g b =
      findClosestColorGo r g b rest 1 (some (distToEntry r g b c)) 0 := rfl
  rw [h0]
  apply findClosestColorGo_spec r g b (c :: rest) rest 1 0 (distToEntry r g b c) rfl
    (by simp [Nat.add_comm]) Nat.zero_lt_one (by rw [slotDist, hc])
  · intro k hk
    interval_cases k
    rw [slotDist, hc]
  · intro k hk _
    omega

/-- The matcher's result is always a valid palette index for a nonempty
palette. -/
theorem findClosestColor_lt_length (pal : List RGB) (r g b : Nat) (h : 0 < pal.length) :
    findClosestColor pal r g b < pal.length :=
  (findClosestColor_spec pal r g b (List.ne_nil_of_length_pos h)).1

/-! ## Structural lemmas about the palette builder -/

theorem getD_mem_of_lt {α : Type} (l : List α) (n : Nat) (d : α) (h : n < l.length) :
    l.getD n d ∈ l := by
  rw [List.getD_eq_getElem?_getD, List.getElem?_eq_getElem h]
  exact List.getElem_mem h

theorem insertSorted_perm (axis : Axis) (c : ColorSample) (l : List ColorSample) :
    (insertSorted axis c l).Perm (c :: l) := by
  induction l with
  | nil => rfl
  | cons d rest ih =>
    rw [insertSorted]
    by_cases hdc : sortKey axis d < sortKey axis c
    · rw [if_pos hdc]
      exact (ih.cons d).trans (List.Perm.swap c d rest)
    · rw [if_neg hdc]

theorem sortColors_perm (axis : Axis) (l : List ColorSample) :
    (sortColors axis l).Perm l := by
  induction l with
  | nil => rfl
  | cons c rest ih =>
    rw [sortColors]
    exact (insertSorted_perm axis c (sortColors axis rest)).trans (ih.cons c)

theorem mem_sortColors (axis : Axis) (l : List ColorSample) (s : ColorSample) :
    s ∈ sortColors axis l ↔ s ∈ l :=
  (sortColors_perm axis l).mem_iff

theorem setAxisMax_colors (axis : Axis) (box : Box) (v : Nat) :
    (setAxisMax axis box v).colors = box.colors := by
  cases axis <;> rfl

theorem setAxisMin_colors (axis : Axis) (box : Box) (v : Nat) :
    (setAxisMin axis box v).colors = box.colors := by
  cases axis <;> rfl

theorem updateBounds_fst_colors (box : Box) (axis : Axis) (L R : List ColorSample) :
    (updateBounds box axis L R).1.colors = L := by
  rw [updateBounds]
  cases L.getLast? <;> cases R.head? <;> simp [setAxisMax_colors, setAxisMin_colors]

theorem updateBounds_snd_colors (box : Box) (axis : Axis) (L R : List ColorSample) :
    (updateBounds box axis L R).2.colors = R := by
  rw [updateBounds]
  cases L.getLast? <;> cases R.head? <;> simp [setAxisMax_colors, setAxisMin_colors]

theorem forcedSplitChildren_mem_fst (box : Box) (axis : Axis) (color s : ColorSample)
    (h : s ∈ (forcedSplitChildren box axis color).1) : s = color := by
  rw [forcedSplitChildren] at h
  split_ifs at h <;> simp_all

theorem forcedSplitChildren_mem_snd (box : Box) (axis : Axis) (color s : ColorSample)
    (h : s ∈ (forcedSplitChildren box axis color).2) : s = color := by
  rw [forcedSplitChildren] at h
  split_ifs at h <;> simp_all

/-- Splitting a box only redistributes samples: any sample of any output box
is a sample of some input box. -/
theorem splitBoxAt_samples (P : ColorSample → Prop) (boxes boxes' : List Box) (i : Nat)
    (hP : ∀ box ∈ boxes, ∀ s ∈ box.colors, P s)
    (h : splitBoxAt boxes i = some boxes') :
    ∀ box ∈ boxes', ∀ s ∈ box.colors, P s := by
  have hbox : ∀ s ∈ (boxes.getD i default).colors, P s := by
    by_cases hi : i < boxes.length
    · exact hP _ (getD_mem_of_lt boxes i default hi)
    · intro s hs
      rw [List.getD_eq_getElem?_getD, List.getElem?_eq_none (by omega)] at hs
      simp [default] at hs
  rw [splitBoxAt] at h
  set box := boxes.getD i default with hboxdef
  set axis := chooseAxis box with haxis
  by_cases hlen : box.colors.length ≤ 1
  · rw [if_pos hlen] at h
    cases hhead : box.colors.head? with
    | none => rw [hhead] at h; exact absurd h (by simp)
    | some color =>
      rw [hhead] at h
      simp only [Option.some.injEq] at h
      have hcolor : P color := hbox color (List.mem_of_mem_head? (by rw [hhead]; rfl))
      intro b hb s hs
      rw [← h] at hb
      rcases List.mem_append.mp hb with hb' | hb'
      · rcases List.mem_append.mp hb' with hb'' | hb''
        · exact hP b ((List.take_sublist i boxes).mem hb'') s hs
        · rcases List.mem_cons.mp hb'' with rfl | hb3
          · rw [updateBounds_fst_colors] at hs
            rw [forcedSplitChildren_mem_fst box axis color s hs]
            exact hcolor
          · rcases List.mem_singleton.mp (by simpa using hb3) with rfl
            rw [updateBounds_snd_colors] at hs
            rw [forcedSplitChildren_mem_snd box axis color s hs]
            exact hcolor
      · exact hP b ((List.drop_sublist (i + 1) boxes).mem hb') s hs
  · rw [if_neg hlen] at h
    simp only [Option.some.injEq] at h
    intro b hb s hs
    rw [← h] at hb
    have hsorted : ∀ s ∈ sortColors axis box.colors, P s := by
      intro s hs'
      exact hbox s ((mem_sortColors axis box.colors s).mp hs')
    rcases List.mem_append.mp hb with hb' | hb'
    · rcases List.mem_append.mp hb' with hb'' | hb''
      · exact hP b ((List.take_sublist i boxes).mem hb'') s hs
      · rcases List.mem_cons.mp hb'' with rfl | hb3
        · simp only [splitMultiBox] at hs
          rw [updateBounds_fst_colors] at hs
          exact hsorted s ((List.take_sublist _ _).mem hs)
        · rcases List.mem_singleton.mp (by simpa using hb3) with rfl
          simp only [splitMultiBox] at hs
          rw [updateBounds_snd_colors] at hs
          exact hsorted s ((List.drop_sublist _ _).mem hs)
    · exact hP b ((List.drop_sublist (i + 1) boxes).mem hb') s hs

theorem dupFill_samples (P : ColorSample → Prop) (existing maxColors : Nat) :
    ∀ (fuel : Nat) (boxes : List Box),
      (∀ box ∈ boxes, ∀ s ∈ box.colors, P s) →
      ∀ box ∈ dupFill existing maxColors fuel boxes, ∀ s ∈ box.colors, P s := by
  intro fuel
  induction fuel with
  | zero => intro boxes hP; exact hP
  | succ fuel ih =>
    intro boxes hP
    rw [dupFill]
    by_cases hcond : boxes.length < maxColors - 1
    · rw [if_pos hcond]
      apply ih
      intro box hbox
      rcases List.mem_append.mp hbox with hb | hb
      · exact hP box hb
      · rcases List.mem_singleton.mp hb with rfl
        by_cases hi : boxes.length % existing < boxes.length
        · exact hP _ (getD_mem_of_lt boxes _ default hi)
        · intro s hs
          rw [List.getD_eq_getElem?_getD, List.getElem?_eq_none (by omega)] at hs
          simp [default] at hs
    · rw [if_neg hcond]
      exact hP

theorem medianCutLoop_samples (P : ColorSample → Prop) (maxColors : Nat) :
    ∀ (fuel : Nat) (boxes boxes' : List Box),
      (∀ box ∈ boxes, ∀ s ∈ box.colors, P s) →
      medianCutLoop maxColors fuel boxes = some boxes' →
      ∀ box ∈ boxes', ∀ s ∈ box.colors, P s := by
  intro fuel
  induction fuel with
  | zero =>
    intro boxes boxes' hP h
    rw [medianCutLoop] at h
    cases h
    exact hP
  | succ fuel ih =>
    intro boxes boxes' hP h
    rw [medianCutLoop] at h
    by_cases hcond : boxes.length < maxColors - 1
    · rw [if_pos hcond] at h
      cases hfind : findLargestIdx boxes with
      | some i =>
        rw [hfind] at h
        dsimp only at h
        cases hsplit : splitBoxAt boxes i with
        | none => rw [hsplit] at h; exact absurd h (by simp)
        | some mid =>
          rw [hsplit] at h
          exact ih mid boxes' (splitBoxAt_samples P boxes mid i hP hsplit) h
      | none =>
        rw [hfind] at h
        dsimp only at h
        cases hfind2 : findSplittableIdx boxes with
        | some i =>
          rw [hfind2] at h
          dsimp only at h
          cases hsplit : splitBoxAt boxes i with
          | none => rw [hsplit] at h; exact absurd h (by simp)
          | some mid =>
            rw [hsplit] at h
            exact ih mid boxes' (splitBoxAt_samples P boxes mid i hP hsplit) h
        | none =>
          rw [hfind2] at h
          simp only [Option.some.injEq] at h
          rw [← h]
          exact dupFill_samples P boxes.length maxColors maxColors boxes hP
    · rw [if_neg hcond] at h
      cases h
      exact hP

theorem foldl_add_eq {α : Type} (f : α → Nat) (l : List α) (a : Nat) :
    l.foldl (fun acc c => acc + f c) a = a + (l.map f).sum := by
  induction l generalizing a with
  | nil => simp
  | cons c rest ih => simp [ih, Nat.add_assoc]

theorem natRoundDiv_le (a c : Nat) (h : a ≤ 255 * c) : natRoundDiv a c ≤ 255 := by
  rw [natRoundDiv]
  rcases Nat.eq_zero_or_pos c with rfl | hc
  · omega
  · have : (2 * a + c) / (2 * c) < 256 := by
      rw [Nat.div_lt_iff_lt_mul (by omega)]
      omega
    omega

theorem boxAvg_le (colors : List ColorSample)
    (h : ∀ s ∈ colors, s.r ≤ 255 ∧ s.g ≤ 255 ∧ s.b ≤ 255) :
    (boxAvg colors).r ≤ 255 ∧ (boxAvg colors).g ≤ 255 ∧ (boxAvg colors).b ≤ 255 := by
  have hcount : ∀ (f : ColorSample → Nat), (∀ s ∈ colors, f s ≤ 255) →
      colors.foldl (fun acc c => acc + f c * c.count) 0 ≤
        255 * colors.foldl (fun acc c => acc + c.count) 0 := by
    intro f hf
    rw [foldl_add_eq (fun c : ColorSample => f c * c.count) colors 0,
      foldl_add_eq (fun c : ColorSample => c.count) colors 0]
    simp only [Nat.zero_add]
    calc (colors.map fun c => f c * c.count).sum
        ≤ (colors.map fun c => 255 * c.count).sum :=
          List.sum_le_sum fun s hs => Nat.mul_le_mul_right _ (hf s hs)
      _ = 255 * (colors.map fun c => c.count).sum := List.sum_map_mul_left _ _ _
  refine ⟨natRoundDiv_le _ _ (hcount _ fun s hs => (h s hs).1),
    natRoundDiv_le _ _ (hcount _ fun s hs => (h s hs).2.1),
    natRoundDiv_le _ _ (hcount _ fun s hs => (h s hs).2.2)⟩

theorem addBox_append (maxC : Nat) (pal : List RGB) (box : Box) :
    ∃ t, addBox maxC pal box = pal ++ t := by
  simp only [addBox]
  split_ifs
  · exact ⟨[black], rfl⟩
  · exact ⟨[], (List.append_nil _).symm⟩
  · exact ⟨[], (List.append_nil _).symm⟩
  · exact ⟨[boxAvg box.colors], rfl⟩

theorem addBoxes_append (maxC : Nat) :
    ∀ (boxes : List Box) (pal : List RGB), ∃ t, addBoxes maxC pal boxes = pal ++ t := by
  intro boxes
  induction boxes with
  | nil => exact fun pal => ⟨[], (List.append_nil _).symm⟩
  | cons box rest ih =>
    intro pal
    rw [addBoxes]
    split_ifs
    · exact ⟨[], (List.append_nil _).symm⟩
    · obtain ⟨t1, ht1⟩ := addBox_append maxC pal box
      obtain ⟨t2, ht2⟩ := ih (addBox maxC pal box)
      exact ⟨t1 ++ t2, by rw [ht2, ht1, List.append_assoc]⟩

theorem addBoxes_mem (maxC : Nat) (P : RGB → Prop) :
    ∀ (boxes : List Box) (pal : List RGB),
      (∀ c ∈ pal, P c) → P black →
      (∀ box ∈ boxes, P (boxAvg box.colors)) →
      ∀ c ∈ addBoxes maxC pal boxes, P c := by
  intro boxes
  induction boxes with
  | nil => intro pal hpal _ _; exact hpal
  | cons box rest ih =>
    intro pal hpal hblack havg
    rw [addBoxes]
    split_ifs
    · exact hpal
    · apply ih _ _ hblack fun b hb => havg b (List.mem_cons_of_mem _ hb)
      intro c hc
      simp only [addBox] at hc
      split_ifs at hc
      · rcases List.mem_append.mp hc with h | h
        · exact hpal c h
        · rw [List.mem_singleton.mp h]; exact hblack
      · exact hpal c hc
      · exact hpal c hc
      · rcases List.mem_append.mp hc with h | h
        · exact hpal c h
        · rw [List.mem_singleton.mp h]
          exact havg box (List.mem_cons_self _ _)

theorem paletteOfBoxes_mem (boxes : List Box) (maxC : Nat) (P : RGB → Prop)
    (hblack : P black) (havg : ∀ box ∈ boxes, P (boxAvg box.colors)) :
    ∀ c ∈ paletteOfBoxes boxes maxC, P c := by
  intro c hc
  rw [paletteOfBoxes] at hc
  have hc' := (List.take_sublist _ _).mem hc
  rcases List.mem_append.mp hc' with h | h
  · exact addBoxes_mem maxC P boxes [black]
      (fun x hx => by rw [List.mem_singleton.mp hx]; exact hblack) hblack havg c h
  · rw [List.eq_of_mem_replicate h]; exact hblack

theorem paletteOfBoxes_length (boxes : List Box) (maxC : Nat) :
    (paletteOfBoxes boxes maxC).length = maxC := by
  rw [paletteOfBoxes]
  simp only [List.length_take, List.length_append, List.length_replicate]
  omega

theorem medianCutQuantize_length (data : List Nat) (N : Nat) (pal : List RGB)
    (h : medianCutQuantize data N = some pal) : pal.length = N := by
  rw [medianCutQuantize] at h
  split_ifs at h
  · cases h; simp
  · cases hloop : medianCutLoop N N [⟨collectColors data, 0, 255, 0, 255, 0, 255⟩] with
    | none => rw [hloop] at h; exact absurd h (by simp)
    | some boxes =>
      rw [hloop] at h
      simp only [Option.some_bind, Option.some.injEq] at h
      rw [← h]
      exact paletteOfBoxes_length boxes N

theorem medianCutQuantize_head (data : List Nat) (N : Nat) (pal : List RGB)
    (hN : 1 ≤ N) (h : medianCutQuantize data N = some pal) : pal.head? = some black := by
  obtain ⟨n, rfl⟩ := Nat.exists_eq_add_of_le hN
  rw [medianCutQuantize] at h
  split_ifs at h
  · cases h
    rw [Nat.add_comm, List.replicate_succ]
    rfl
  · cases hloop : medianCutLoop (1 + n) (1 + n) [⟨collectColors data, 0, 255, 0, 255, 0, 255⟩] with
    | none => rw [hloop] at h; exact absurd h (by simp)
    | some boxes =>
      rw [hloop] at h
      simp only [Option.some_bind, Option.some.injEq] at h
      obtain ⟨t, ht⟩ := addBoxes_append (1 + n) boxes [black]
      rw [← h, paletteOfBoxes, ht]
      rw [show ([black] ++ t) ++ List.replicate (1 + n - ([black] ++ t).length) black =
        black :: (t ++ List.replicate (1 + n - ([black] ++ t).length) black) by simp]
      rw [Nat.add_comm, List.take_succ_cons]
      rfl

/-- Bytes of the image bound the collected samples. -/
theorem pixelsOf_mem (data : List Nat) :
    ∀ p ∈ pixelsOf data, p.1 ∈ data ∧ p.2.1 ∈ data ∧ p.2.2.1 ∈ data := by
  induction data using pixelsOf.induct with
  | case1 r g b a rest ih =>
    intro p hp
    rw [pixelsOf] at hp
    rcases List.mem_cons.mp hp with rfl | hp'
    · refine ⟨by simp, by simp, by simp⟩
    · obtain ⟨h1, h2, h3⟩ := ih p hp'
      exact ⟨by simp [h1], by simp [h2], by simp [h3]⟩
  | case2 data h =>
    intro p hp
    rw [pixelsOf] at hp
    · simp at hp
    · exact h

theorem bumpColor_mem (Q : Nat → Nat → Nat → Prop) (r g b : Nat) (hQ : Q r g b) :
    ∀ (l : List ColorSample), (∀ s ∈ l, Q s.r s.g s.b) →
      ∀ s ∈ bumpColor r g b l, Q s.r s.g s.b := by
  intro l
  induction l with
  | nil =>
    intro _ s hs
    rw [bumpColor] at hs
    rw [List.mem_singleton.mp hs]
    exact hQ
  | cons c rest ih =>
    intro hl s hs
    rw [bumpColor] at hs
    split_ifs at hs
    · rcases List.mem_cons.mp hs with rfl | hs'
      · exact hl c (List.mem_cons_self _ _)
      · exact hl s (List.mem_cons_of_mem _ hs')
    · rcases List.mem_cons.mp hs with rfl | hs'
      · exact hl s (List.mem_cons_self _ _)
      · exact ih (fun x hx => hl x (List.mem_cons_of_mem _ hx)) s hs'

theorem collectColors_mem (data : List Nat) (hdata : ∀ v ∈ data, v ≤ 255) :
    ∀ s ∈ collectColors data, s.r ≤ 255 ∧ s.g ≤ 255 ∧ s.b ≤ 255 := by
  rw [collectColors]
  have hpx := pixelsOf_mem data
  generalize hl : pixelsOf data = l at hpx
  have main : ∀ (l' : List (Nat × Nat × Nat × Nat)) (acc : List ColorSample),
      (∀ p ∈ l', p.1 ≤ 255 ∧ p.2.1 ≤ 255 ∧ p.2.2.1 ≤ 255) →
      (∀ s ∈ acc, s.r ≤ 255 ∧ s.g ≤ 255 ∧ s.b ≤ 255) →
      ∀ s ∈ l'.foldl
        (fun acc p => if p.2.2.2 < 128 then acc else bumpColor p.1 p.2.1 p.2.2.1 acc) acc,
        s.r ≤ 255 ∧ s.g ≤ 255 ∧ s.b ≤ 255 := by
    intro l'
    induction l' with
    | nil => intro acc _ hacc; exact hacc
    | cons p rest ih =>
      intro acc hp hacc
      rw [List.foldl_cons]
      apply ih _ fun q hq => hp q (List.mem_cons_of_mem _ hq)
      by_cases ha : p.2.2.2 < 128
      · rw [if_pos ha]; exact hacc
      · rw [if_neg ha]
        obtain ⟨h1, h2, h3⟩ := hp p (List.mem_cons_self _ _)
        exact bumpColor_mem (fun a b c => a ≤ 255 ∧ b ≤ 255 ∧ c ≤ 255) _ _ _
          ⟨h1, h2, h3⟩ acc hacc
  apply main l [] _ (by simp)
  intro p hp
  obtain ⟨h1, h2, h3⟩ := hpx p hp
  exact ⟨hdata _ h1, hdata _ h2, hdata _ h3⟩

/-- Any palette `medianCutQuantize` returns for a byte-valued image has all
channels in `[0, 255]`. -/
theorem medianCutQuantize_bounded (data : List Nat) (N : Nat) (pal : List RGB)
    (hdata : ∀ v ∈ data, v ≤ 255) (h : medianCutQuantize data N = some pal) :
    ∀ c ∈ pal, c.r ≤ 255 ∧ c.g ≤ 255 ∧ c.b ≤ 255 := by
  rw [medianCutQuantize] at h
  split_ifs at h
  · cases h
    intro c hc
    rw [List.eq_of_mem_replicate hc]
    exact ⟨Nat.zero_le _, Nat.zero_le _, Nat.zero_le _⟩
  · cases hloop : medianCutLoop N N [⟨collectColors data, 0, 255, 0, 255, 0, 255⟩] with
    | none => rw [hloop] at h; exact absurd h (by simp)
    | some boxes =>
      rw [hloop] at h
      simp only [Option.some_bind, Option.some.injEq] at h
      rw [← h]
      have hboxes : ∀ box ∈ boxes, ∀ s ∈ box.colors,
          s.r ≤ 255 ∧ s.g ≤ 255 ∧ s.b ≤ 255 := by
        apply medianCutLoop_samples (fun s => s.r ≤ 255 ∧ s.g ≤ 255 ∧ s.b ≤ 255)
          N N _ boxes _ hloop
        intro box hbox s hs
        rw [List.mem_singleton.mp hbox] at hs
        exact collectColors_mem data hdata s hs
      apply paletteOfBoxes_mem boxes N (fun c => c.r ≤ 255 ∧ c.g ≤ 255 ∧ c.b ≤ 255)
        ⟨Nat.zero_le _, Nat.zero_le _, Nat.zero_le _⟩
      intro box hbox
      exact boxAvg_le box.colors (hboxes box hbox)

/-! ## Byte-layout lemmas for the encoded files -/

theorem rowSize24_ge (w : Nat) : 3 * w ≤ rowSize 24 w := by
  rw [rowSize]; omega

theorem rowSize8_ge (w : Nat) : w ≤ rowSize 8 w := by
  rw [rowSize]; omega

theorem rowSize4_ge (w : Nat) : (w + 1) / 2 ≤ rowSize 4 w := by
  rw [rowSize]; omega

theorem getD_le_255 (l : List Nat) (n : Nat) (h : ∀ v ∈ l, v ≤ 255) :
    l.getD n 0 ≤ 255 := by
  by_cases hn : n < l.length
  · exact h _ (getD_mem_of_lt l n 0 hn)
  · rw [List.getD_eq_getElem?_getD, List.getElem?_eq_none (by omega)]
    exact Nat.zero_le _

theorem byte_eq_self (v : Nat) (h : v ≤ 255) : byte v = v :=
  Nat.mod_eq_of_lt (by omega)

theorem pixelData24_row_length (img : Image) :
    ∀ i < img.height,
      (((List.range img.width).flatMap fun x =>
          let j := (i * img.width + x) * 4
          [byte (img.data.getD (j + 2) 0), byte (img.data.getD (j + 1) 0),
            byte (img.data.getD j 0)]) ++
        List.replicate (rowSize 24 img.width - 3 * img.width) 0).length =
        rowSize 24 img.width := by
  intro i _
  rw [List.length_append, List.length_replicate,
    length_flatMap_range _ img.width 3 (fun _ _ => by rfl)]
  have := rowSize24_ge img.width
  omega

theorem pixelData24_getD (img : Image) (x y c : Nat) (hx : x < img.width)
    (hy : y < img.height) (hc : c < 3) :
    (pixelData24 img).getD (y * rowSize 24 img.width + (3 * x + c)) 0 =
      [byte (img.data.getD ((y * img.width + x) * 4 + 2) 0),
        byte (img.data.getD ((y * img.width + x) * 4 + 1) 0),
        byte (img.data.getD ((y * img.width + x) * 4) 0)].getD c 0 := by
  rw [pixelData24]
  rw [getD_flatMap_range 0 _ img.height (rowSize 24 img.width)
    (pixelData24_row_length img) y (3 * x + c) hy
    (by have := rowSize24_ge img.width; omega)]
  rw [List.getD_append _ _ 0 _
    (by rw [length_flatMap_range _ img.width 3 (fun _ _ => by rfl)]; omega)]
  rw [show 3 * x + c = x * 3 + c by ring]
  rw [getD_flatMap_range 0 _ img.width 3 (fun _ _ => by rfl) x c hx hc]

theorem encodeBMP_shift (img : Image) (k : Nat) :
    (encodeBMP img).getD (54 + k) 0 = (pixelData24 img).getD k 0 := by
  rw [encodeBMP, List.getD_append_right _ _ _ _ (by rw [bmpHeader_length]; omega),
    bmpHeader_length]
  congr 1
  omega

theorem paletteBytes_getD (pal : List RGB) (n i c : Nat) (hi : i < n) (hc : c < 4) :
    (paletteBytes pal n).getD (4 * i + c) 0 =
      [byte (pal.getD i black).b, byte (pal.getD i black).g,
        byte (pal.getD i black).r, 0].getD c 0 := by
  rw [paletteBytes, show 4 * i + c = i * 4 + c by ring]
  rw [getD_flatMap_range 0 _ n 4 (fun _ _ => by rfl) i c hi hc]

theorem pixelData8_row_length (w h : Nat) (idx : Nat → Nat → Nat) :
    ∀ i < h,
      ((((List.range w).map fun x => byte (idx x i)) ++
        List.replicate (rowSize 8 w - w) 0)).length = rowSize 8 w := by
  intro i _
  rw [List.length_append, List.length_replicate, List.length_map, List.length_range]
  have := rowSize8_ge w
  omega

theorem pixelData8_getD (w h : Nat) (idx : Nat → Nat → Nat) (x y : Nat)
    (hx : x < w) (hy : y < h) :
    (pixelData8 w h idx).getD (y * rowSize 8 w + x) 0 = byte (idx x y) := by
  rw [pixelData8]
  rw [getD_flatMap_range 0 _ h (rowSize 8 w) (pixelData8_row_length w h idx) y x hy
    (by have := rowSize8_ge w; omega)]
  rw [List.getD_append _ _ 0 _ (by rw [List.length_map, List.length_range]; omega)]
  exact getD_map_range 0 _ w x hx

theorem pixelData4_row_length (w h : Nat) (idx : Nat → Nat → Nat) :
    ∀ i < h,
      ((((List.range ((w + 1) / 2)).map fun k =>
          byte ((idx (2 * k) i) <<< 4 ||| (if 2 * k + 1 < w then idx (2 * k + 1) i else 0))) ++
        List.replicate (rowSize 4 w - (w + 1) / 2) 0)).length = rowSize 4 w := by
  intro i _
  rw [List.length_append, List.length_replicate, List.length_map, List.length_range]
  have := rowSize4_ge w
  omega

theorem pixelData4_getD (w h : Nat) (idx : Nat → Nat → Nat) (k y : Nat)
    (hk : k < (w + 1) / 2) (hy : y < h) :
    (pixelData4 w h idx).getD (y * rowSize 4 w + k) 0 =
      byte ((idx (2 * k) y) <<< 4 ||| (if 2 * k + 1 < w then idx (2 * k + 1) y else 0)) := by
  rw [pixelData4]
  rw [getD_flatMap_range 0 _ h (rowSize 4 w) (pixelData4_row_length w h idx) y k hy
    (by have := rowSize4_ge w; omega)]
  rw [List.getD_append _ _ 0 _ (by rw [List.length_map, List.length_range]; omega)]
  exact getD_map_range 0 _ _ k hk

/-- C5 core: the byte of the 24-bit file at channel `c` of pixel `(x, y)`. -/
theorem encodeBMP_pixel_byte (img : Image) (x y c : Nat) (hx : x < img.width)
    (hy : y < img.height) (hc : c < 3) :
    (encodeBMP img).getD (54 + y * rowSize 24 img.width + 3 * x + c) 0 =
      [byte (img.data.getD ((y * img.width + x) * 4 + 2) 0),
        byte (img.data.getD ((y * img.width + x) * 4 + 1) 0),
        byte (img.data.getD ((y * img.width + x) * 4) 0)].getD c 0 := by
  rw [show 54 + y * rowSize 24 img.width + 3 * x + c =
    54 + (y * rowSize 24 img.width + (3 * x + c)) by ring]
  rw [encodeBMP_shift]
  exact pixelData24_getD img x y c hx hy hc

theorem getD_append_shift {α : Type} (d : α) (A B : List α) (n k : Nat)
    (h : A.length = n) : (A ++ B).getD (n + k) d = B.getD k d := by
  rw [List.getD_append_right _ _ _ _ (by omega), h]
  congr 1
  omega

theorem pack_nibbles_aux : ∀ i1 < 16, ∀ i2 < 16, (i1 <<< 4 ||| i2) = 16 * i1 + i2 := by
  decide

theorem pack_nibbles (i1 i2 : Nat) (h1 : i1 < 16) (h2 : i2 < 16) :
    (i1 <<< 4 ||| i2) = 16 * i1 + i2 :=
  pack_nibbles_aux i1 h1 i2 h2

theorem pixelIndex_lt (data : List Nat) (w : Nat) (pal : List RGB) (x y : Nat)
    (h : 0 < pal.length) :
    pixelIndex data w (findClosestColor pal) x y < pal.length := by
  rw [pixelIndex]
  split_ifs
  · exact h
  · exact findClosestColor_lt_length pal _ _ _ h

/-- **C2** (the claim is right, the code is wrong): on `crashData` with
`maxColors = 16` the split loop reaches a state where no multi-sample box has
positive volume, the first box with a range over 1 is one that holds no
samples, and the forced-split path then evaluates `box.colors[0].b` with
`box.colors` empty — a `TypeError` (modelled by `none`), despite the source's
own comment "box.colors should never be empty here" and the spec's
"never raises". -/
theorem medianCutQuantize_crashes_on_crashData :
    medianCutQuantize crashData 16 = none := by
  decide

theorem encodeBMP_lossless_aux (img : Image) (x y : Nat)
    (hdata : ∀ v ∈ img.data, v ≤ 255) (hx : x < img.width) (hy : y < img.height) :
    (encodeBMP img).getD (54 + y * rowSize 24 img.width + 3 * x) 0 =
        img.data.getD ((y * img.width + x) * 4 + 2) 0 ∧
      (encodeBMP img).getD (54 + y * rowSize 24 img.width + 3 * x + 1) 0 =
        img.data.getD ((y * img.width + x) * 4 + 1) 0 ∧
      (encodeBMP img).getD (54 + y * rowSize 24 img.width + 3 * x + 2) 0 =
        img.data.getD ((y * img.width + x) * 4) 0 ∧
      decodeBMP24At (encodeBMP img) img.width x y = imagePixelRGB img x y := by
  have hb : ∀ k, img.data.getD k 0 ≤ 255 := fun k => getD_le_255 _ _ hdata
  have h0 := encodeBMP_pixel_byte img x y 0 hx hy (by omega)
  have h1 := encodeBMP_pixel_byte img x y 1 hx hy (by omega)
  have h2 := encodeBMP_pixel_byte img x y 2 hx hy (by omega)
  rw [Nat.add_zero] at h0
  simp only [List.getD_cons_zero, List.getD_cons_succ] at h0 h1 h2
  rw [byte_eq_self _ (hb _)] at h0 h1 h2
  refine ⟨h0, h1, h2, ?_⟩
  rw [decodeBMP24At, imagePixelRGB]
  rw [h0, h1, h2]

/-- **C5**: the 24-bit encoder writes, for every pixel `(x, y)` regardless of
its alpha, the bytes `B, G, R` of the source pixel at offset
`54 + y * rowSize + 3 * x`, so decoding the 24-bit file reproduces the source
RGB exactly. -/
theorem encodeBMP_lossless (img : Image) (x y : Nat)
    (hdata : ∀ v ∈ img.data, v ≤ 255) (hx : x < img.width) (hy : y < img.height) :
    (encodeBMP img).getD (54 + y * rowSize 24 img.width + 3 * x) 0 =
        img.data.getD ((y * img.width + x) * 4 + 2) 0 ∧
      (encodeBMP img).getD (54 + y * rowSize 24 img.width + 3 * x + 1) 0 =
        img.data.getD ((y * img.width + x) * 4 + 1) 0 ∧
      (encodeBMP img).getD (54 + y * rowSize 24 img.width + 3 * x + 2) 0 =
        img.data.getD ((y * img.width + x) * 4) 0 ∧
      decodeBMP24At (encodeBMP img) img.width x y = imagePixelRGB img x y :=
  encodeBMP_lossless_aux img x y hdata hx hy

theorem encodeBMP8Bit_eq (img : Image) (dither : Bool) (pal : List RGB)
    (hpal : medianCutQuantize img.data 256 = some pal) :
    encodeBMP8Bit img dither = some
      (bmpHeader (54 + 1024 + rowSize 8 img.width * img.height) (54 + 1024) img.width
          img.height 8 (rowSize 8 img.width * img.height) 256 ++
        paletteBytes pal 256 ++
        pixelData8 img.width img.height
          (pixelIndex (indexBuffer8 img dither pal) img.width (findClosestColor pal))) := by
  rw [encodeBMP8Bit, hpal, Option.some_bind, indexBuffer8]

theorem encodeBMP4Bit_eq (img : Image) (ag : Bool) (pal : List RGB)
    (hpal : medianCutQuantize img.data 16 = some pal) :
    encodeBMP4Bit img ag = some
      (bmpHeader (54 + 64 + rowSize 4 img.width * img.height) (54 + 64) img.width
          img.height 4 (rowSize 4 img.width * img.height) 16 ++
        paletteBytes pal 16 ++
        pixelData4 img.width img.height
          (pixelIndex (indexBuffer4 img ag pal) img.width (findClosestColor pal))) := by
  rw [encodeBMP4Bit, hpal, Option.some_bind, indexBuffer4]
  cases ag <;> simp [encodeBMP4BitFromData]

theorem paletteBytes_length_256 (pal : List RGB) : (paletteBytes pal 256).length = 1024 := by
  rw [paletteBytes_length]

theorem paletteBytes_length_16 (pal : List RGB) : (paletteBytes pal 16).length = 64 := by
  rw [paletteBytes_length]

/-- The index byte of the 8-bit file at pixel `(x, y)`. -/
theorem encodeBMP8Bit_index_byte (img : Image) (dither : Bool) (F : List Nat)
    (pal : List RGB) (hpal : medianCutQuantize img.data 256 = some pal)
    (hF : encodeBMP8Bit img dither = some F) (x y : Nat) (hx : x < img.width)
    (hy : y < img.height) :
    F.getD (54 + 1024 + y * rowSize 8 img.width + x) 0 =
      pixelIndex (indexBuffer8 img dither pal) img.width (findClosestColor pal) x y := by
  rw [encodeBMP8Bit_eq img dither pal hpal] at hF
  have hFeq := Option.some.inj hF
  subst hFeq
  have hlen : pal.length = 256 := medianCutQuantize_length _ _ _ hpal
  rw [show 54 + 1024 + y * rowSize 8 img.width + x =
    1078 + (y * rowSize 8 img.width + x) by ring]
  rw [getD_append_shift 0 _ _ 1078 _
    (by rw [List.length_append, bmpHeader_length, paletteBytes_length_256])]
  rw [pixelData8_getD _ _ _ x y hx hy]
  have hidx := pixelIndex_lt (indexBuffer8 img dither pal) img.width pal x y (by omega)
  exact byte_eq_self _ (by omega)

/-- The packed byte of the 4-bit file covering pixels `(2k, y)` and
`(2k + 1, y)`. -/
theorem encodeBMP4Bit_byte (img : Image) (ag : Bool) (F : List Nat) (pal : List RGB)
    (hpal : medianCutQuantize img.data 16 = some pal) (hF : encodeBMP4Bit img ag = some F)
    (k y : Nat) (hk : k < (img.width + 1) / 2) (hy : y < img.height) :
    F.getD (54 + 64 + y * rowSize 4 img.width + k) 0 =
      16 * pixelIndex (indexBuffer4 img ag pal) img.width (findClosestColor pal) (2 * k) y +
        (if 2 * k + 1 < img.width
          then pixelIndex (indexBuffer4 img ag pal) img.width (findClosestColor pal)
            (2 * k + 1) y
          else 0) := by
  rw [encodeBMP4Bit_eq img ag pal hpal] at hF
  have hFeq := Option.some.inj hF
  subst hFeq
  have hlen : pal.length = 16 := medianCutQuantize_length _ _ _ hpal
  have hi1 : pixelIndex (indexBuffer4 img ag pal) img.width (findClosestColor pal)
      (2 * k) y < 16 := by
    have := pixelIndex_lt (indexBuffer4 img ag pal) img.width pal (2 * k) y (by omega)
    omega
  have hi2 : (if 2 * k + 1 < img.width
      then pixelIndex (indexBuffer4 img ag pal) img.width (findClosestColor pal)
        (2 * k + 1) y
      else 0) < 16 := by
    split_ifs
    · have := pixelIndex_lt (indexBuffer4 img ag pal) img.width pal (2 * k + 1) y (by omega)
      omega
    · omega
  rw [show 54 + 64 + y * rowSize 4 img.width + k =
    118 + (y * rowSize 4 img.width + k) by ring]
  rw [getD_append_shift 0 _ _ 118 _
    (by rw [List.length_append, bmpHeader_length, paletteBytes_length_16])]
  rw [pixelData4_getD _ _ _ k y hk hy]
  rw [pack_nibbles _ _ hi1 hi2]
  exact byte_eq_self _ (by omega)

theorem encodeBMP4Bit_packing_aux (img : Image) (ag : Bool) (F : List Nat) (pal : List RGB)
    (hpal : medianCutQuantize img.data 16 = some pal) (hF : encodeBMP4Bit img ag = some F)
    (x y : Nat) (hx : x < img.width) (hy : y < img.height) (hev : x % 2 = 0) :
    pixelIndex (indexBuffer4 img ag pal) img.width (findClosestColor pal) x y < 16 ∧
      F.getD (54 + 64 + y * rowSize 4 img.width + x / 2) 0 / 16 =
        pixelIndex (indexBuffer4 img ag pal) img.width (findClosestColor pal) x y ∧
      F.getD (54 + 64 + y * rowSize 4 img.width + x / 2) 0 % 16 =
        (if x + 1 < img.width
          then pixelIndex (indexBuffer4 img ag pal) img.width (findClosestColor pal)
            (x + 1) y
          else 0) ∧
      (img.width % 2 = 1 →
        F.getD (54 + 64 + y * rowSize 4 img.width + (img.width - 1) / 2) 0 % 16 = 0) := by
  have hlen : pal.length = 16 := medianCutQuantize_length _ _ _ hpal
  have hx2 : 2 * (x / 2) = x := by omega
  have hbyte := encodeBMP4Bit_byte img ag F pal hpal hF (x / 2) y (by omega) hy
  rw [hx2] at hbyte
  have hi1 : pixelIndex (indexBuffer4 img ag pal) img.width (findClosestColor pal)
      x y < 16 := by
    have := pixelIndex_lt (indexBuffer4 img ag pal) img.width pal x y (by omega)
    omega
  have hi2 : (if x + 1 < img.width
      then pixelIndex (indexBuffer4 img ag pal) img.width (findClosestColor pal)
        (x + 1) y
      else 0) < 16 := by
    split_ifs
    · have := pixelIndex_lt (indexBuffer4 img ag pal) img.width pal (x + 1) y (by omega)
      omega
    · omega
  refine ⟨hi1, by rw [hbyte]; omega, by rw [hbyte]; omega, ?_⟩
  intro hodd
  have hlast := encodeBMP4Bit_byte img ag F pal hpal hF ((img.width - 1) / 2) y
    (by omega) hy
  have h2k : 2 * ((img.width - 1) / 2) = img.width - 1 := by omega
  rw [h2k] at hlast
  have hnot : ¬(img.width - 1 + 1 < img.width) := by omega
  rw [if_neg hnot] at hlast
  have hlow : pixelIndex (indexBuffer4 img ag pal) img.width (findClosestColor pal)
      (img.width - 1) y < 16 := by
    have := pixelIndex_lt (indexBuffer4 img ag pal) img.width pal (img.width - 1) y
      (by omega)
    omega
  rw [hlast]
  omega

/-- **C9**: in the 4-bit encoder every emitted pixel byte packs the even-x
pixel's index in its high nibble and the following odd-x pixel's index in its
low nibble; when the width is odd the final data byte of each row has low
nibble 0; and every packed index fits in a nibble because the palette has
exactly 16 entries. -/
theorem encodeBMP4Bit_packing (img : Image) (ag : Bool) (F : List Nat) (pal : List RGB)
    (hpal : medianCutQuantize img.data 16 = some pal) (hF : encodeBMP4Bit img ag = some F)
    (x y : Nat) (hx : x < img.width) (hy : y < img.height) (hev : x % 2 = 0) :
    pixelIndex (indexBuffer4 img ag pal) img.width (findClosestColor pal) x y < 16 ∧
      F.getD (54 + 64 + y * rowSize 4 img.width + x / 2) 0 / 16 =
        pixelIndex (indexBuffer4 img ag pal) img.width (findClosestColor pal) x y ∧
      F.getD (54 + 64 + y * rowSize 4 img.width + x / 2) 0 % 16 =
        (if x + 1 < img.width
          then pixelIndex (indexBuffer4 img ag pal) img.width (findClosestColor pal)
            (x + 1) y
          else 0) ∧
      (img.width % 2 = 1 →
        F.getD (54 + 64 + y * rowSize 4 img.width + (img.width - 1) / 2) 0 % 16 = 0) :=
  encodeBMP4Bit_packing_aux img ag F pal hpal hF x y hx hy hev

/-- **C6**: in both the 8-bit and the 4-bit encoder, every pixel whose alpha
in the buffer used for index assignment is below 128 is assigned palette
index 0 — in the index loop itself, in the 8-bit file's index byte, and in
the 4-bit file's nibble. -/
theorem transparent_pixels_index0 :
    (∀ (data : List Nat) (w : Nat) (fcc : Nat → Nat → Nat → Nat) (x y : Nat),
        data.getD ((y * w + x) * 4 + 3) 0 < 128 → pixelIndex data w fcc x y = 0) ∧
      (∀ (img : Image) (dither : Bool) (F : List Nat) (pal : List RGB),
        medianCutQuantize img.data 256 = some pal →
        encodeBMP8Bit img dither = some F →
        ∀ x y, x < img.width → y < img.height →
          (indexBuffer8 img dither pal).getD ((y * img.width + x) * 4 + 3) 0 < 128 →
          F.getD (54 + 1024 + y * rowSize 8 img.width + x) 0 = 0) ∧
      (∀ (img : Image) (ag : Bool) (F : List Nat) (pal : List RGB),
        medianCutQuantize img.data 16 = some pal →
        encodeBMP4Bit img ag = some F →
        ∀ x y, x < img.width → y < img.height →
          (indexBuffer4 img ag pal).getD ((y * img.width + x) * 4 + 3) 0 < 128 →
          (if x % 2 = 0 then F.getD (54 + 64 + y * rowSize 4 img.width + x / 2) 0 / 16
            else F.getD (54 + 64 + y * rowSize 4 img.width + x / 2) 0 % 16) = 0) := by
  have hidx : ∀ (data : List Nat) (w : Nat) (fcc : Nat → Nat → Nat → Nat) (x y : Nat),
      data.getD ((y * w + x) * 4 + 3) 0 < 128 → pixelIndex data w fcc x y = 0 := by
    intro data w fcc x y h
    rw [pixelIndex, if_pos h]
  refine ⟨hidx, ?_, ?_⟩
  · intro img dither F pal hpal hF x y hx hy htr
    rw [encodeBMP8Bit_index_byte img dither F pal hpal hF x y hx hy]
    exact hidx _ _ _ x y htr
  · intro img ag F pal hpal hF x y hx hy htr
    by_cases hev : x % 2 = 0
    · rw [if_pos hev]
      rw [(encodeBMP4Bit_packing_aux img ag F pal hpal hF x y hx hy hev).2.1]
      exact hidx _ _ _ x y htr
    · rw [if_neg hev]
      have hev' : (x - 1) % 2 = 0 := by omega
      have hx' : x - 1 < img.width := by omega
      have hdiv : (x - 1) / 2 = x / 2 := by omega
      have hp := (encodeBMP4Bit_packing_aux img ag F pal hpal hF (x - 1) y hx' hy hev').2.2.1
      rw [hdiv] at hp
      have hx1 : x - 1 + 1 = x := by omega
      rw [hx1, if_pos hx, hidx _ _ _ x y htr] at hp
      exact hp

/-! ## Dithering frame effect: transparent pixels are untouched -/

theorem getD_set_ne {α : Type} (l : List α) (i j : Nat) (v d : α) (h : i ≠ j) :
    (l.set i v).getD j d = l.getD j d := by
  rw [List.getD_eq_getElem?_getD, List.getD_eq_getElem?_getD, List.getElem?_set_ne h]

theorem BufInv.refl (data : List Nat) : BufInv data data :=
  ⟨fun _ => rfl, fun _ _ _ _ => rfl⟩

/-- Writing a color channel (`c < 3`) of a pixel whose original alpha is at
least 128 preserves the invariant. -/
theorem BufInv.setOpaque (data buf : List Nat) (q c v : Nat) (h : BufInv data buf)
    (hc : c < 3) (hq : 128 ≤ data.getD (4 * q + 3) 0) :
    BufInv data (buf.set (4 * q + c) v) := by
  constructor
  · intro q'
    rw [getD_set_ne _ _ _ _ _ (by omega)]
    exact h.1 q'
  · intro p c' hc' htr
    have hne : 4 * q + c ≠ 4 * p + c' := by
      intro he
      have : q = p ∧ c = c' := by omega
      rw [this.1] at hq
      omega
    rw [getD_set_ne _ _ _ _ _ hne]
    exact h.2 p c' hc' htr

theorem BufInv.distErr (data buf : List Nat) (w h₀ : Nat) (x1 y1 : ℤ)
    (eR eG eB wgt : ℚ) (h : BufInv data buf) :
    BufInv data (distributeError w h₀ buf x1 y1 eR eG eB wgt) := by
  simp only [distributeError]
  split_ifs with hin hguard
  · generalize hq : ((y1 * (w : ℤ) + x1)).toNat = q at hguard ⊢
    have hqa : 128 ≤ data.getD (4 * q + 3) 0 := by
      have h1 := h.1 q
      rw [show 4 * q + 3 = q * 4 + 3 by ring] at h1 ⊢
      omega
    rw [show q * 4 + 2 = 4 * q + 2 by ring]
    refine BufInv.setOpaque data _ q 2 _ ?_ (by omega) hqa
    rw [show q * 4 + 1 = 4 * q + 1 by ring]
    refine BufInv.setOpaque data _ q 1 _ ?_ (by omega) hqa
    rw [show q * 4 = 4 * q + 0 by ring]
    exact BufInv.setOpaque data _ q 0 _ h (by omega) hqa
  · exact h
  · exact h

theorem BufInv.ditherPixel (data buf : List Nat) (w h₀ : Nat) (pal : List RGB)
    (fcc : Nat → Nat → Nat → Nat) (x y : Nat) (h : BufInv data buf) :
    BufInv data (ditherPixel w h₀ pal fcc buf x y) := by
  simp only [BmpSpec.ditherPixel]
  split_ifs with htr
  · exact h
  · have hqa : 128 ≤ data.getD (4 * (y * w + x) + 3) 0 := by
      have h1 := h.1 (y * w + x)
      rw [show 4 * (y * w + x) + 3 = (y * w + x) * 4 + 3 by ring] at h1 ⊢
      omega
    apply BufInv.distErr
    apply BufInv.distErr
    apply BufInv.distErr
    apply BufInv.distErr
    rw [show (y * w + x) * 4 + 2 = 4 * (y * w + x) + 2 by ring]
    refine BufInv.setOpaque data _ (y * w + x) 2 _ ?_ (by omega) hqa
    rw [show (y * w + x) * 4 + 1 = 4 * (y * w + x) + 1 by ring]
    refine BufInv.setOpaque data _ (y * w + x) 1 _ ?_ (by omega) hqa
    rw [show (y * w + x) * 4 = 4 * (y * w + x) + 0 by ring]
    exact BufInv.setOpaque data _ (y * w + x) 0 _ h (by omega) hqa

theorem applyFSD_BufInv (data : List Nat) (w h : Nat) (pal : List RGB)
    (fcc : Nat → Nat → Nat → Nat) :
    BufInv data (applyFloydSteinbergDithering data w h pal fcc) := by
  rw [applyFloydSteinbergDithering]
  have main : ∀ (l : List (Nat × Nat)) (buf : List Nat), BufInv data buf →
      BufInv data (l.foldl (fun buf p => ditherPixel w h pal fcc buf p.1 p.2) buf) := by
    intro l
    induction l with
    | nil => intro buf hbuf; exact hbuf
    | cons p rest ih =>
      intro buf hbuf
      exact ih _ (BufInv.ditherPixel data buf w h pal fcc p.1 p.2 hbuf)
  exact main _ data (BufInv.refl data)

/-- Alpha bytes survive dithering unchanged. -/
theorem applyFSD_alpha (data : List Nat) (w h : Nat) (pal : List RGB)
    (fcc : Nat → Nat → Nat → Nat) (q : Nat) :
    (applyFloydSteinbergDithering data w h pal fcc).getD (4 * q + 3) 0 =
      data.getD (4 * q + 3) 0 :=
  (applyFSD_BufInv data w h pal fcc).1 q

theorem distributeError_length (w h₀ : Nat) (buf : List Nat) (x1 y1 : ℤ)
    (eR eG eB wgt : ℚ) :
    (distributeError w h₀ buf x1 y1 eR eG eB wgt).length = buf.length := by
  simp only [distributeError]
  split_ifs <;> simp

theorem ditherPixel_length (w h₀ : Nat) (pal : List RGB) (fcc : Nat → Nat → Nat → Nat)
    (buf : List Nat) (x y : Nat) :
    (ditherPixel w h₀ pal fcc buf x y).length = buf.length := by
  simp only [ditherPixel]
  split_ifs
  · rfl
  · simp [distributeError_length]

/-- The dithered buffer has the same shape as the input. -/
theorem applyFSD_length (data : List Nat) (w h : Nat) (pal : List RGB)
    (fcc : Nat → Nat → Nat → Nat) :
    (applyFloydSteinbergDithering data w h pal fcc).length = data.length := by
  rw [applyFloydSteinbergDithering]
  have main : ∀ (l : List (Nat × Nat)) (buf : List Nat),
      (l.foldl (fun buf p => ditherPixel w h pal fcc buf p.1 p.2) buf).length =
        buf.length := by
    intro l
    induction l with
    | nil => intro buf; rfl
    | cons p rest ih => intro buf; rw [List.foldl_cons, ih, ditherPixel_length]
  exact main _ data

/-- **C7**: the Floyd-Steinberg disperser returns a new buffer of the same
shape (the source copies its input and only ever mutates the copy; this model
is pure, so the caller's buffer is untouched by construction), and every
pixel whose alpha is below 128 keeps exactly its input RGBA: it is never
recolored and never receives propagated error. -/
theorem dithering_preserves_transparent (data : List Nat) (w h : Nat) (pal : List RGB)
    (fcc : Nat → Nat → Nat → Nat) (p c : Nat) (hc : c < 4)
    (htr : data.getD (4 * p + 3) 0 < 128) :
    (applyFloydSteinbergDithering data w h pal fcc).length = data.length ∧
      (applyFloydSteinbergDithering data w h pal fcc).getD (4 * p + c) 0 =
        data.getD (4 * p + c) 0 :=
  ⟨applyFSD_length data w h pal fcc,
    (applyFSD_BufInv data w h pal fcc).2 p c hc htr⟩

/-- Witness for C7 at a concrete input: a 1×1 fully transparent pixel. -/
theorem dithering_preserves_transparent_witness :
    (2 : Nat) < 4 ∧ ([9, 8, 7, 5] : List Nat).getD (4 * 0 + 3) 0 < 128 ∧
      (applyFloydSteinbergDithering [9, 8, 7, 5] 1 1 [black] (fun _ _ _ => 0)).getD
        (4 * 0 + 2) 0 = ([9, 8, 7, 5] : List Nat).getD (4 * 0 + 2) 0 :=
  ⟨by omega, by decide,
    (dithering_preserves_transparent [9, 8, 7, 5] 1 1 [black] (fun _ _ _ => 0) 0 2
      (by omega) (by decide)).2⟩

/-! ## C10: what the matcher minimizes

The scan compares IEEE-754 doubles.  On distinct exact distances the
computed doubles are ordered like the exact values (the gap between distinct
exact distances dwarfs the rounding error), but exactly-tied exact distances
can round to doubles one ulp apart — so the program's tie-break follows the
computed doubles, not the exact metric.  The theorems below state the
matcher's behaviour over `distToEntryFP`, the exact value of the double the
program computes, and refute the original lowest-exact-tie claim. -/

theorem distToEntry_nonneg (r g b : Nat) (c : RGB) : 0 ≤ distToEntry r g b c := by
  rw [distToEntry, perceptualDistanceSq100]
  positivity

/-- `mulIntFP` is rounded exact multiplication. -/
theorem mulIntFP_eq (q : ℚ) (z : ℤ) : mulIntFP q z = fl (q * z) := by
  rw [mulIntFP]
  congr 1
  rw [show q * (z : ℚ) = Rat.divInt q.num q.den * Rat.divInt z 1 by
    rw [Rat.divInt_self, Rat.divInt_one]]
  rw [Rat.divInt_mul_divInt _ _ (by exact_mod_cast q.den_nz) one_ne_zero, mul_one]

/-- `addFP` is rounded exact addition. -/
theorem addFP_eq (q r : ℚ) : addFP q r = fl (q + r) := by
  rw [addFP]
  congr 1
  rw [show q + r = Rat.divInt q.num q.den + Rat.divInt r.num r.den by
    rw [Rat.divInt_self, Rat.divInt_self]]
  rw [Rat.divInt_add_divInt _ _ (by exact_mod_cast q.den_nz) (by exact_mod_cast r.den_nz)]

/-- Invariant of the floating-point scan, mirroring `findClosestColorGo_spec`:
from a state whose running minimum is the distance of slot `best`, the first
slot of all later minimal computed distances, the scan returns the first
minimal slot of the whole palette. -/
theorem findClosestColorFPGo_spec (r g b : Nat) (pal : List RGB) :
    ∀ (l : List RGB) (i best : Nat) (m : ℚ),
      pal.drop i = l → i + l.length = pal.length → best < i →
      slotDistFP pal r g b best = m →
      (∀ k, k < i → m ≤ slotDistFP pal r g b k) →
      (∀ k, k < i → slotDistFP pal r g b k = m → best ≤ k) →
      findClosestColorFPGo r g b l i (some m) best < pal.length ∧
      (∀ k, k < pal.length →
        slotDistFP pal r g b (findClosestColorFPGo r g b l i (some m) best) ≤
          slotDistFP pal r g b k) ∧
      (∀ k, k < pal.length →
        slotDistFP pal r g b k =
          slotDistFP pal r g b (findClosestColorFPGo r g b l i (some m) best) →
        findClosestColorFPGo r g b l i (some m) best ≤ k) := by
  intro l
  induction l with
  | nil =>
    intro i best m hdrop hlen hbest hm hmin hfirst
    simp only [findClosestColorFPGo]
    simp only [List.length_nil, Nat.add_zero] at hlen
    subst hlen
    exact ⟨hbest, fun k hk => hm ▸ hmin k hk, fun k hk hdk => hfirst k hk (hm ▸ hdk)⟩
  | cons c rest ih =>
    intro i best m hdrop hlen hbest hm hmin hfirst
    have hc : pal.getD i black = c := by
      rw [List.getD_eq_getElem?_getD]
      have h1 : pal[i]? = (pal.drop i)[0]? := by rw [List.getElem?_drop, Nat.add_zero]
      rw [h1, hdrop]
      simp
    have hdropsucc : pal.drop (i + 1) = rest := by
      have : pal.drop (i + 1) = (pal.drop i).drop 1 := by
        rw [List.drop_drop, Nat.add_comm]
      rw [this, hdrop]
      rfl
    have hlensucc : (i + 1) + rest.length = pal.length := by
      simp only [List.length_cons] at hlen
      omega
    have hdi : distToEntryFP r g b c = slotDistFP pal r g b i := by
      rw [slotDistFP, hc]
    simp only [findClosestColorFPGo]
    by_cases hlt : distToEntryFP r g b c < m
    · simp only [if_pos hlt]
      apply ih (i + 1) i (distToEntryFP r g b c) hdropsucc hlensucc (Nat.lt_succ_self i)
        hdi.symm
      · intro k hk
        rcases Nat.lt_succ_iff_lt_or_eq.mp hk with hk' | rfl
        · exact le_of_lt (lt_of_lt_of_le hlt (hmin k hk'))
        · rw [← hdi]
      · intro k hk hdk
        rcases Nat.lt_succ_iff_lt_or_eq.mp hk with hk' | rfl
        · exfalso
          have h1 := hmin k hk'
          rw [hdk] at h1
          exact absurd (lt_of_le_of_lt h1 hlt) (lt_irrefl m)
        · exact le_refl _
    · simp only [if_neg hlt]
      apply ih (i + 1) best m hdropsucc hlensucc (Nat.lt_succ_of_lt hbest) hm
      · intro k hk
        rcases Nat.lt_succ_iff_lt_or_eq.mp hk with hk' | rfl
        · exact hmin k hk'
        · rw [← hdi]; exact not_lt.mp hlt
      · intro k hk hdk
        rcases Nat.lt_succ_iff_lt_or_eq.mp hk with hk' | rfl
        · exact hfirst k hk' hdk
        · exact le_of_lt hbest

/-- **C10** (amended): for every nonempty palette and every `(r, g, b)`, the
matcher returns a valid index whose computed distance — the IEEE-754 binary64
value of `sqrt(0.3·Δr² + 0.59·Δg² + 0.11·Δb²)` that the program evaluates —
is minimal over the whole palette, and among the entries attaining that
minimal computed double it returns the lowest index.  The original claim's
tie-break over the exact metric is refuted by `fp_tie_break_counterexample`:
exactly-tied exact distances can round to doubles one ulp apart. -/
theorem findClosestColorFP_minimizes (pal : List RGB) (r g b : Nat) (hne : pal ≠ []) :
    findClosestColorFP pal r g b < pal.length ∧
      (∀ j, j < pal.length →
        distToEntryFP r g b (pal.getD (findClosestColorFP pal r g b) black) ≤
          distToEntryFP r g b (pal.getD j black)) ∧
      (∀ j, j < pal.length →
        distToEntryFP r g b (pal.getD j black) =
          distToEntryFP r g b (pal.getD (findClosestColorFP pal r g b) black) →
        findClosestColorFP pal r g b ≤ j) := by
  obtain ⟨c, rest, rfl⟩ := List.exists_cons_of_ne_nil hne
  have hc : (c :: rest).getD 0 black = c := rfl
  have h0 : findClosestColorFP (c :: rest) r g b =
      findClosestColorFPGo r g b rest 1 (some (distToEntryFP r g b c)) 0 := rfl
  rw [h0]
  apply findClosestColorFPGo_spec r g b (c :: rest) rest 1 0 (distToEntryFP r g b c) rfl
    (by simp [Nat.add_comm]) Nat.zero_lt_one (by rw [slotDistFP, hc])
  · intro k hk
    have hk0 : k = 0 := by omega
    subst hk0
    rw [slotDistFP, hc]
  · intro k hk _
    omega

set_option maxRecDepth 2000 in
/-- **C10** counterexample to the original claim: with palette
`[(10,0,11), (12,0,1)]` and query `(0,0,0)` the two entries have exactly
equal exact distances (`√43.31` both — the exact scaled metric gives 4331 on
both sides), so the original claim requires the lowest tied index 0; but the
doubles the program computes differ by one ulp, the second entry giving the
smaller one, and the matcher returns index 1. -/
theorem fp_tie_break_counterexample :
    perceptualDistanceSq100 0 0 0 10 0 11 = perceptualDistanceSq100 0 0 0 12 0 1 ∧
      findClosestColorFP [⟨10, 0, 11⟩, ⟨12, 0, 1⟩] 0 0 0 = 1 ∧
      distToEntryFP 0 0 0 ⟨12, 0, 1⟩ < distToEntryFP 0 0 0 ⟨10, 0, 11⟩ := by
  decide

set_option maxRecDepth 2000 in
/-- Witness for the amended C10 at a concrete palette and query. -/
theorem findClosestColorFP_minimizes_witness :
    ([black, ⟨10, 20, 30⟩] : List RGB) ≠ [] ∧
      findClosestColorFP [black, ⟨10, 20, 30⟩] 10 20 30 <
        ([black, ⟨10, 20, 30⟩] : List RGB).length :=
  ⟨by decide, (findClosestColorFP_minimizes [black, ⟨10, 20, 30⟩] 10 20 30 (by decide)).1⟩


/-! ## C3: the black slot -/

/-- **C3** counterexample: on the empty pixel buffer the builder returns 16
black entries, so black also occupies index 1 — the claim that black appears
at no index other than 0 is false. -/
theorem black_not_unique_counterexample :
    ¬(∀ pal, medianCutQuantize [] 16 = some pal →
        ∀ j, j < pal.length → j ≠ 0 → pal.getD j ⟨1, 1, 1⟩ ≠ black) := by
  intro hcl
  exact hcl (List.replicate 16 black) (by decide) 1 (by decide) (by decide) (by decide)

/-- **C3** amended: entry 0 of every returned palette is black, and a
nonempty box whose count-weighted average rounds to exactly black contributes
nothing to the palette (the skip branch).  Black may still appear at other
indices as the empty-box placeholder, the end filler, or the all-black
default palette. -/
theorem palette_black_slot :
    (∀ (data : List Nat) (N : Nat) (pal : List RGB), 1 ≤ N →
        medianCutQuantize data N = some pal → pal.head? = some black) ∧
      (∀ (maxC : Nat) (pal : List RGB) (box : Box), ¬box.colors.isEmpty →
        boxAvg box.colors = black → addBox maxC pal box = pal) := by
  refine ⟨fun data N pal hN h => medianCutQuantize_head data N pal hN h, ?_⟩
  intro maxC pal box hne havg
  simp only [addBox]
  split_ifs
  rfl

/-- Witness for C3 (amended) at concrete inputs. -/
theorem palette_black_slot_witness :
    ((1 : Nat) ≤ 16 ∧ (List.replicate 16 black).head? = some black) ∧
      (¬([⟨0, 0, 0, 2⟩] : List ColorSample).isEmpty ∧
        boxAvg [⟨0, 0, 0, 2⟩] = black ∧
        addBox 16 [⟨7, 7, 7⟩] ⟨[⟨0, 0, 0, 2⟩], 0, 0, 0, 0, 0, 0⟩ = [⟨7, 7, 7⟩]) :=
  ⟨⟨by omega, palette_black_slot.1 [] 16 _ (by omega) (by decide)⟩,
    by decide, by decide,
    palette_black_slot.2 16 [⟨7, 7, 7⟩] ⟨[⟨0, 0, 0, 2⟩], 0, 0, 0, 0, 0, 0⟩
      (by decide) (by decide)⟩

/-! ## C4: bounds of the two children of a multi-sample split -/

theorem insertSorted_sorted (axis : Axis) (c : ColorSample) (l : List ColorSample)
    (hl : l.Pairwise fun a b => sortKey axis a ≤ sortKey axis b) :
    (insertSorted axis c l).Pairwise fun a b => sortKey axis a ≤ sortKey axis b := by
  induction l with
  | nil => simp [insertSorted]
  | cons d rest ih =>
    obtain ⟨hd, htl⟩ := List.pairwise_cons.mp hl
    rw [insertSorted]
    by_cases hdc : sortKey axis d < sortKey axis c
    · rw [if_pos hdc]
      refine List.pairwise_cons.mpr ⟨?_, ih htl⟩
      intro e he
      rcases List.mem_cons.mp ((insertSorted_perm axis c rest).mem_iff.mp he) with rfl | he'
      · omega
      · exact hd e he'
    · rw [if_neg hdc]
      refine List.pairwise_cons.mpr ⟨?_, hl⟩
      intro e he
      rcases List.mem_cons.mp he with rfl | he'
      · omega
      · have := hd e he'
        omega

theorem sortColors_sorted (axis : Axis) (l : List ColorSample) :
    (sortColors axis l).Pairwise fun a b => sortKey axis a ≤ sortKey axis b := by
  induction l with
  | nil => exact List.Pairwise.nil
  | cons c rest ih => exact insertSorted_sorted axis c _ ih

theorem sorted_getLast?_max (axis : Axis) :
    ∀ (l : List ColorSample) (c : ColorSample),
      l.Pairwise (fun a b => sortKey axis a ≤ sortKey axis b) → l.getLast? = some c →
      c ∈ l ∧ ∀ s ∈ l, sortKey axis s ≤ sortKey axis c := by
  intro l
  induction l with
  | nil => intro c _ h; exact absurd h (by simp)
  | cons d rest ih =>
    intro c hl hlast
    cases rest with
    | nil =>
      have : c = d := by
        have : (([d] : List ColorSample)).getLast? = some d := rfl
        rw [this] at hlast
        exact (Option.some.inj hlast).symm
      subst this
      exact ⟨List.mem_singleton_self _, by intro s hs; rw [List.mem_singleton.mp hs]⟩
    | cons e rest' =>
      obtain ⟨hd, htl⟩ := List.pairwise_cons.mp hl
      rw [List.getLast?_cons_cons] at hlast
      obtain ⟨hmem, hmax⟩ := ih c htl hlast
      refine ⟨List.mem_cons_of_mem _ hmem, ?_⟩
      intro s hs
      rcases List.mem_cons.mp hs with rfl | hs'
      · exact hd c hmem
      · exact hmax s hs'

theorem sorted_head?_min (axis : Axis) (l : List ColorSample) (c : ColorSample)
    (hl : l.Pairwise (fun a b => sortKey axis a ≤ sortKey axis b))
    (hh : l.head? = some c) :
    c ∈ l ∧ ∀ s ∈ l, sortKey axis c ≤ sortKey axis s := by
  cases l with
  | nil => exact absurd hh (by simp)
  | cons d rest =>
    have hcd : c = d := by
      rw [List.head?_cons] at hh
      exact (Option.some.inj hh).symm
    subst hcd
    obtain ⟨hd, _⟩ := List.pairwise_cons.mp hl
    refine ⟨List.mem_cons_self _ _, ?_⟩
    intro s hs
    rcases List.mem_cons.mp hs with rfl | hs'
    · exact le_refl _
    · exact hd s hs'

theorem axisMax_setAxisMax (axis : Axis) (box : Box) (v : Nat) :
    axisMax axis (setAxisMax axis box v) = v := by
  cases axis <;> rfl

theorem axisMin_setAxisMax (a axis : Axis) (box : Box) (v : Nat) :
    axisMin a (setAxisMax axis box v) = axisMin a box := by
  cases a <;> cases axis <;> rfl

theorem axisMax_setAxisMax_ne (a axis : Axis) (box : Box) (v : Nat) (h : a ≠ axis) :
    axisMax a (setAxisMax axis box v) = axisMax a box := by
  cases a <;> cases axis <;> first | rfl | exact absurd rfl h

theorem axisMin_setAxisMin (axis : Axis) (box : Box) (v : Nat) :
    axisMin axis (setAxisMin axis box v) = v := by
  cases axis <;> rfl

theorem axisMax_setAxisMin (a axis : Axis) (box : Box) (v : Nat) :
    axisMax a (setAxisMin axis box v) = axisMax a box := by
  cases a <;> cases axis <;> rfl

theorem axisMin_setAxisMin_ne (a axis : Axis) (box : Box) (v : Nat) (h : a ≠ axis) :
    axisMin a (setAxisMin axis box v) = axisMin a box := by
  cases a <;> cases axis <;> first | rfl | exact absurd rfl h

theorem updateBounds_fst_of_getLast (box : Box) (axis : Axis) (L R : List ColorSample)
    (c : ColorSample) (h : L.getLast? = some c) :
    (updateBounds box axis L R).1 =
      setAxisMax axis { box with colors := L } (sortKey axis c) := by
  simp only [updateBounds, h]

theorem updateBounds_snd_of_head (box : Box) (axis : Axis) (L R : List ColorSample)
    (c : ColorSample) (h : R.head? = some c) :
    (updateBounds box axis L R).2 =
      setAxisMin axis { box with colors := R } (sortKey axis c) := by
  simp only [updateBounds, h]

theorem updateBounds_snd_of_empty (box : Box) (axis : Axis) (L : List ColorSample) :
    (updateBounds box axis L []).2 = { box with colors := ([] : List ColorSample) } := by
  simp only [updateBounds, List.head?_nil]

theorem axisMin_mk_colors (a : Axis) (box : Box) (L : List ColorSample) :
    axisMin a { box with colors := L } = axisMin a box := by
  cases a <;> rfl

theorem axisMax_mk_colors (a : Axis) (box : Box) (L : List ColorSample) :
    axisMax a { box with colors := L } = axisMax a box := by
  cases a <;> rfl

/-- **C4** counterexample: on `cbox` the split axis is `r`, every sample of
the left child has `r ≥ 5`, yet the left child's `rMin` is the parent's 0 —
so the child's minimum on the split axis is not recomputed from its own
samples' extremes as the claim states. -/
theorem splitMultiBox_min_not_recomputed :
    chooseAxis cbox = Axis.r ∧
      2 ≤ cbox.colors.length ∧
      (splitMultiBox cbox (chooseAxis cbox)).1.rMin = 0 ∧
      (∀ s ∈ (splitMultiBox cbox (chooseAxis cbox)).1.colors, 5 ≤ s.r) ∧
      (splitMultiBox cbox (chooseAxis cbox)).1.colors ≠ [] := by
  decide

/-- **C4** amended: in a multi-sample split only the left child's maximum and
the right child's minimum on the split axis are recomputed from their own
samples; the remaining bounds inherit the parent's, and an empty right child
keeps the parent's range. -/
theorem splitMultiBox_bounds (box : Box) (h2 : 2 ≤ box.colors.length) :
    C4Statement box := by
  rw [C4Statement]
  set axis := chooseAxis box with haxis
  have hsorted := sortColors_sorted axis box.colors
  have hslen : (sortColors axis box.colors).length = box.colors.length :=
    (sortColors_perm axis box.colors).length_eq
  set sorted := sortColors axis box.colors with hsorteddef
  set m := medianIdxGo (sorted.foldl (fun acc c => acc + c.count) 0) 0 0 sorted with hm
  have hsplit : splitMultiBox box axis =
      updateBounds box axis (sorted.take (m + 1)) (sorted.drop (m + 1)) := rfl
  set L := sorted.take (m + 1) with hL
  set R := sorted.drop (m + 1) with hR
  have hLne : L ≠ [] := by
    rw [hL]
    have : sorted ≠ [] := by
      intro hnil
      rw [hnil] at hslen
      simp at hslen
      omega
    intro htake
    rcases List.take_eq_nil_iff.mp htake with h | h
    · exact absurd h (by omega)
    · exact this h
  obtain ⟨cL, hcL⟩ : ∃ c, L.getLast? = some c := by
    cases hc : L.getLast? with
    | none => exact absurd (List.getLast?_eq_none_iff.mp hc) hLne
    | some c => exact ⟨c, rfl⟩
  have hLsorted : L.Pairwise fun a b => sortKey axis a ≤ sortKey axis b :=
    hsorted.sublist (List.take_sublist _ _)
  obtain ⟨hcLmem, hcLmax⟩ := sorted_getLast?_max axis L cL hLsorted hcL
  have hfst := updateBounds_fst_of_getLast box axis L R cL hcL
  rw [hsplit]
  refine ⟨?_, ?_, ?_, ?_, ?_, ?_, ?_⟩
  · rw [updateBounds_fst_colors]
    exact hLne
  · rw [hfst, axisMin_setAxisMax, axisMin_mk_colors]
  · intro a ha
    rw [hfst, axisMin_setAxisMax, axisMin_mk_colors, axisMax_setAxisMax_ne a axis _ _ ha,
      axisMax_mk_colors]
    exact ⟨rfl, rfl⟩
  · intro s hs
    rw [updateBounds_fst_colors] at hs
    rw [hfst, axisMax_setAxisMax]
    exact hcLmax s hs
  · refine ⟨cL, ?_, ?_⟩
    · rw [updateBounds_fst_colors]
      exact hcLmem
    · rw [hfst, axisMax_setAxisMax]
  · intro hRe
    rw [updateBounds_snd_colors] at hRe
    intro a
    rw [hRe] at hsplit ⊢
    rw [updateBounds_snd_of_empty, axisMin_mk_colors, axisMax_mk_colors]
    exact ⟨rfl, rfl⟩
  · intro hRne
    rw [updateBounds_snd_colors] at hRne
    obtain ⟨cR, hcR⟩ : ∃ c, R.head? = some c := by
      cases hc : R.head? with
      | none => exact absurd (List.head?_eq_none_iff.mp hc) hRne
      | some c => exact ⟨c, rfl⟩
    have hRsorted : R.Pairwise fun a b => sortKey axis a ≤ sortKey axis b :=
      hsorted.sublist (List.drop_sublist _ _)
    obtain ⟨hcRmem, hcRmin⟩ := sorted_head?_min axis R cR hRsorted hcR
    have hsnd := updateBounds_snd_of_head box axis L R cR hcR
    refine ⟨?_, ?_, ?_, ?_⟩
    · rw [hsnd, axisMax_setAxisMin, axisMax_mk_colors]
    · intro a ha
      rw [hsnd, axisMax_setAxisMin, axisMax_mk_colors,
        axisMin_setAxisMin_ne a axis _ _ ha, axisMin_mk_colors]
      exact ⟨rfl, rfl⟩
    · intro s hs
      rw [updateBounds_snd_colors] at hs
      rw [hsnd, axisMin_setAxisMin]
      exact hcRmin s hs
    · refine ⟨cR, ?_, ?_⟩
      · rw [updateBounds_snd_colors]
        exact hcRmem
      · rw [hsnd, axisMin_setAxisMin]

/-- Witness for the amended C4 at the counterexample box. -/
theorem splitMultiBox_bounds_witness : 2 ≤ cbox.colors.length ∧ C4Statement cbox :=
  ⟨by decide, splitMultiBox_bounds cbox (by decide)⟩

/-! ## C1: previews agree with decoding the encoded files -/

theorem indexBuffer8_alpha (img : Image) (flag : Bool) (pal : List RGB) (q : Nat) :
    (indexBuffer8 img flag pal).getD (q * 4 + 3) 0 = img.data.getD (q * 4 + 3) 0 := by
  rw [indexBuffer8]
  cases flag
  · rfl
  · rw [if_pos rfl, show q * 4 + 3 = 4 * q + 3 by ring]
    exact applyFSD_alpha img.data img.width img.height pal (findClosestColor pal) q

theorem indexBuffer4_alpha (img : Image) (flag : Bool) (pal : List RGB) (q : Nat) :
    (indexBuffer4 img flag pal).getD (q * 4 + 3) 0 = img.data.getD (q * 4 + 3) 0 := by
  rw [indexBuffer4]
  cases flag
  · rfl
  · rw [if_pos rfl, show q * 4 + 3 = 4 * q + 3 by ring]
    exact applyFSD_alpha img.data img.width img.height pal (findClosestColor pal) q

theorem palette_getD_bounded (pal : List RGB) (i : Nat)
    (h : ∀ c ∈ pal, c.r ≤ 255 ∧ c.g ≤ 255 ∧ c.b ≤ 255) :
    (pal.getD i black).r ≤ 255 ∧ (pal.getD i black).g ≤ 255 ∧
      (pal.getD i black).b ≤ 255 := by
  by_cases hi : i < pal.length
  · exact h _ (getD_mem_of_lt pal i black hi)
  · rw [List.getD_eq_getElem?_getD, List.getElem?_eq_none (by omega)]
    exact ⟨Nat.zero_le _, Nat.zero_le _, Nat.zero_le _⟩

theorem generatePreview8Bit_eq (img : Image) (flag : Bool) (pal : List RGB)
    (hpal : medianCutQuantize img.data 256 = some pal) :
    generatePreview8Bit img flag = some
      (quantizeImageData ⟨img.width, img.height, indexBuffer8 img flag pal⟩ pal
        (findClosestColor pal)) := by
  rw [generatePreview8Bit, hpal, Option.some_bind, indexBuffer8]
  cases flag <;> rfl

theorem generatePreview4Bit_eq (img : Image) (flag : Bool) (pal : List RGB)
    (hpal : medianCutQuantize img.data 16 = some pal) :
    generatePreview4Bit img flag = some
      (quantizeImageData ⟨img.width, img.height, indexBuffer4 img flag pal⟩ pal
        (findClosestColor pal)) := by
  rw [generatePreview4Bit, hpal, Option.some_bind, indexBuffer4]
  cases flag <;> rfl

theorem quantizeImageData_getD (img : Image) (pal : List RGB)
    (fcc : Nat → Nat → Nat → Nat) (x y c : Nat) (hx : x < img.width)
    (hy : y < img.height) (hc : c < 4) :
    (quantizeImageData img pal fcc).data.getD ((y * img.width + x) * 4 + c) 0 =
      (if img.data.getD ((y * img.width + x) * 4 + 3) 0 < 128
        then [0, 0, 0, clampByte (img.data.getD ((y * img.width + x) * 4 + 3) 0)]
        else
          [clampByte (pal.getD
              (fcc (img.data.getD ((y * img.width + x) * 4) 0)
                (img.data.getD ((y * img.width + x) * 4 + 1) 0)
                (img.data.getD ((y * img.width + x) * 4 + 2) 0)) black).r,
            clampByte (pal.getD
              (fcc (img.data.getD ((y * img.width + x) * 4) 0)
                (img.data.getD ((y * img.width + x) * 4 + 1) 0)
                (img.data.getD ((y * img.width + x) * 4 + 2) 0)) black).g,
            clampByte (pal.getD
              (fcc (img.data.getD ((y * img.width + x) * 4) 0)
                (img.data.getD ((y * img.width + x) * 4 + 1) 0)
                (img.data.getD ((y * img.width + x) * 4 + 2) 0)) black).b,
            clampByte (img.data.getD ((y * img.width + x) * 4 + 3) 0)]).getD c 0 := by
  have hrowlen : ∀ i < img.height,
      ((List.range img.width).flatMap fun x =>
        let j := (i * img.width + x) * 4
        let a := img.data.getD (j + 3) 0
        if a < 128 then [0, 0, 0, clampByte a]
        else
          let cc := pal.getD
            (fcc (img.data.getD j 0) (img.data.getD (j + 1) 0) (img.data.getD (j + 2) 0))
            black
          [clampByte cc.r, clampByte cc.g, clampByte cc.b, clampByte a]).length =
        img.width * 4 := by
    intro i _
    apply length_flatMap_range
    intro k _
    dsimp only
    split_ifs <;> rfl
  rw [show (y * img.width + x) * 4 + c = y * (img.width * 4) + (x * 4 + c) by ring]
  rw [quantizeImageData]
  rw [getD_flatMap_range 0 _ img.height (img.width * 4) hrowlen y (x * 4 + c) hy
    (by omega)]
  rw [getD_flatMap_range 0 _ img.width 4
    (fun k _ => by dsimp only; split_ifs <;> rfl) x c hx hc]

theorem file8_palette_byte (img : Image) (dither : Bool) (F : List Nat) (pal : List RGB)
    (hpal : medianCutQuantize img.data 256 = some pal)
    (hF : encodeBMP8Bit img dither = some F) (i c : Nat) (hi : i < 256) (hc : c < 4) :
    F.getD (54 + 4 * i + c) 0 =
      [byte (pal.getD i black).b, byte (pal.getD i black).g,
        byte (pal.getD i black).r, 0].getD c 0 := by
  rw [encodeBMP8Bit_eq img dither pal hpal] at hF
  have hFeq := Option.some.inj hF
  subst hFeq
  rw [List.getD_append _ _ 0 _
    (by rw [List.length_append, bmpHeader_length, paletteBytes_length_256]; omega)]
  rw [show 54 + 4 * i + c = 54 + (4 * i + c) by ring]
  rw [getD_append_shift 0 _ _ 54 _ (bmpHeader_length _ _ _ _ _ _ _)]
  exact paletteBytes_getD pal 256 i c hi hc

theorem file4_palette_byte (img : Image) (ag : Bool) (F : List Nat) (pal : List RGB)
    (hpal : medianCutQuantize img.data 16 = some pal)
    (hF : encodeBMP4Bit img ag = some F) (i c : Nat) (hi : i < 16) (hc : c < 4) :
    F.getD (54 + 4 * i + c) 0 =
      [byte (pal.getD i black).b, byte (pal.getD i black).g,
        byte (pal.getD i black).r, 0].getD c 0 := by
  rw [encodeBMP4Bit_eq img ag pal hpal] at hF
  have hFeq := Option.some.inj hF
  subst hFeq
  rw [List.getD_append _ _ 0 _
    (by rw [List.length_append, bmpHeader_length, paletteBytes_length_16]; omega)]
  rw [show 54 + 4 * i + c = 54 + (4 * i + c) by ring]
  rw [getD_append_shift 0 _ _ 54 _ (bmpHeader_length _ _ _ _ _ _ _)]
  exact paletteBytes_getD pal 16 i c hi hc

theorem clampByte_eq_self (v : Nat) (h : v ≤ 255) : clampByte v = v :=
  min_eq_left h

/-- Recovering the stored palette index of any pixel from the 4-bit file's
nibbles. -/
theorem decode4_index (img : Image) (ag : Bool) (F : List Nat) (pal : List RGB)
    (hpal : medianCutQuantize img.data 16 = some pal)
    (hF : encodeBMP4Bit img ag = some F) (x y : Nat) (hx : x < img.width)
    (hy : y < img.height) :
    (if x % 2 = 0 then F.getD (54 + 64 + y * rowSize 4 img.width + x / 2) 0 / 16
      else F.getD (54 + 64 + y * rowSize 4 img.width + x / 2) 0 % 16) =
      pixelIndex (indexBuffer4 img ag pal) img.width (findClosestColor pal) x y := by
  by_cases hev : x % 2 = 0
  · rw [if_pos hev]
    exact (encodeBMP4Bit_packing_aux img ag F pal hpal hF x y hx hy hev).2.1
  · rw [if_neg hev]
    have hev' : (x - 1) % 2 = 0 := by omega
    have hx' : x - 1 < img.width := by omega
    have hdiv : (x - 1) / 2 = x / 2 := by omega
    have hp := (encodeBMP4Bit_packing_aux img ag F pal hpal hF (x - 1) y hx' hy hev').2.2.1
    rw [hdiv] at hp
    have hx1 : x - 1 + 1 = x := by omega
    rw [hx1, if_pos hx] at hp
    exact hp

/-- **C1**: for every bit depth, every dithering flag and every opaque pixel
(alpha at least 128), the RGB the preview function produces at that pixel
equals the RGB obtained by decoding the file the corresponding encode
function produces, at the same pixel coordinate (the palette entry referenced
by the stored index for 8/4-bit, the stored BGR triple for 24-bit). -/
theorem preview_matches_encode (d : Depth) (img : Image) (flag : Bool) (x y : Nat)
    (hdata : ∀ v ∈ img.data, v ≤ 255) (hx : x < img.width) (hy : y < img.height)
    (halpha : 128 ≤ img.data.getD ((y * img.width + x) * 4 + 3) 0)
    (hP : (previewAt d img flag).isSome) (hF : (encodeAt d img flag).isSome) :
    imagePixelRGB ((previewAt d img flag).getD ⟨0, 0, []⟩) x y =
      decodeAt d ((encodeAt d img flag).getD []) img.width x y := by
  cases d with
  | d24 =>
    have h := (encodeBMP_lossless_aux img x y hdata hx hy).2.2.2
    simp only [previewAt, encodeAt, decodeAt, Option.getD_some, generatePreview24Bit]
    rw [h]
  | d8 =>
    simp only [previewAt, encodeAt, decodeAt] at hP hF ⊢
    cases hpal : medianCutQuantize img.data 256 with
    | none =>
      rw [generatePreview8Bit, hpal] at hP
      exact absurd hP (by simp)
    | some pal =>
      rw [generatePreview8Bit_eq img flag pal hpal, encodeBMP8Bit_eq img flag pal hpal]
      simp only [Option.getD_some]
      have hpallen : pal.length = 256 := medianCutQuantize_length _ _ _ hpal
      have hbnd := medianCutQuantize_bounded img.data 256 pal hdata hpal
      have halpha' : ¬(indexBuffer8 img flag pal).getD ((y * img.width + x) * 4 + 3) 0
          < 128 := by
        rw [show (y * img.width + x) * 4 + 3 = (y * img.width + x) * 4 + 3 from rfl,
          indexBuffer8_alpha img flag pal (y * img.width + x)]
        omega
      have hFfile := encodeBMP8Bit_eq img flag pal hpal
      have hidxbyte := encodeBMP8Bit_index_byte img flag _ pal hpal hFfile x y hx hy
      have hidx : pixelIndex (indexBuffer8 img flag pal) img.width (findClosestColor pal)
          x y < 256 := by
        have := pixelIndex_lt (indexBuffer8 img flag pal) img.width pal x y (by omega)
        omega
      rw [imagePixelRGB, decodeBMP8At]
      have hq0 := quantizeImageData_getD ⟨img.width, img.height, indexBuffer8 img flag pal⟩
        pal (findClosestColor pal) x y 0 hx hy (by omega)
      have hq1 := quantizeImageData_getD ⟨img.width, img.height, indexBuffer8 img flag pal⟩
        pal (findClosestColor pal) x y 1 hx hy (by omega)
      have hq2 := quantizeImageData_getD ⟨img.width, img.height, indexBuffer8 img flag pal⟩
        pal (findClosestColor pal) x y 2 hx hy (by omega)
      simp only [if_neg halpha'] at hq0 hq1 hq2
      rw [Nat.add_zero] at hq0
      rw [show (quantizeImageData ⟨img.width, img.height, indexBuffer8 img flag pal⟩ pal
        (findClosestColor pal)).width = img.width from rfl]
      rw [hq0, hq1, hq2]
      rw [hidxbyte]
      rw [show pixelIndex (indexBuffer8 img flag pal) img.width (findClosestColor pal) x y =
        findClosestColor pal ((indexBuffer8 img flag pal).getD ((y * img.width + x) * 4) 0)
          ((indexBuffer8 img flag pal).getD ((y * img.width + x) * 4 + 1) 0)
          ((indexBuffer8 img flag pal).getD ((y * img.width + x) * 4 + 2) 0) from by
        rw [pixelIndex, if_neg halpha']] at hidx ⊢
      rw [decodePaletteEntry]
      have hpb0 := file8_palette_byte img flag _ pal hpal hFfile _ 0 hidx (by omega)
      simp only [Nat.add_zero] at hpb0
      rw [hpb0, file8_palette_byte img flag _ pal hpal hFfile _ 1 hidx (by omega),
        file8_palette_byte img flag _ pal hpal hFfile _ 2 hidx (by omega)]
      obtain ⟨hr, hg, hb⟩ := palette_getD_bounded pal _ hbnd
      simp only [List.getD_cons_zero, List.getD_cons_succ]
      rw [clampByte_eq_self _ hr, clampByte_eq_self _ hg, clampByte_eq_self _ hb,
        byte_eq_self _ hr, byte_eq_self _ hg, byte_eq_self _ hb]
  | d4 =>
    simp only [previewAt, encodeAt, decodeAt] at hP hF ⊢
    cases hpal : medianCutQuantize img.data 16 with
    | none =>
      rw [generatePreview4Bit, hpal] at hP
      exact absurd hP (by simp)
    | some pal =>
      rw [generatePreview4Bit_eq img flag pal hpal, encodeBMP4Bit_eq img flag pal hpal]
      simp only [Option.getD_some]
      have hpallen : pal.length = 16 := medianCutQuantize_length _ _ _ hpal
      have hbnd := medianCutQuantize_bounded img.data 16 pal hdata hpal
      have halpha' : ¬(indexBuffer4 img flag pal).getD ((y * img.width + x) * 4 + 3) 0
          < 128 := by
        rw [indexBuffer4_alpha img flag pal (y * img.width + x)]
        omega
      have hFfile := encodeBMP4Bit_eq img flag pal hpal
      have hnib := decode4_index img flag _ pal hpal hFfile x y hx hy
      have hidx : pixelIndex (indexBuffer4 img flag pal) img.width (findClosestColor pal)
          x y < 16 := by
        have := pixelIndex_lt (indexBuffer4 img flag pal) img.width pal x y (by omega)
        omega
      rw [imagePixelRGB, decodeBMP4At]
      have hq0 := quantizeImageData_getD ⟨img.width, img.height, indexBuffer4 img flag pal⟩
        pal (findClosestColor pal) x y 0 hx hy (by omega)
      have hq1 := quantizeImageData_getD ⟨img.width, img.height, indexBuffer4 img flag pal⟩
        pal (findClosestColor pal) x y 1 hx hy (by omega)
      have hq2 := quantizeImageData_getD ⟨img.width, img.height, indexBuffer4 img flag pal⟩
        pal (findClosestColor pal) x y 2 hx hy (by omega)
      simp only [if_neg halpha'] at hq0 hq1 hq2
      rw [Nat.add_zero] at hq0
      rw [show (quantizeImageData ⟨img.width, img.height, indexBuffer4 img flag pal⟩ pal
        (findClosestColor pal)).width = img.width from rfl]
      rw [hq0, hq1, hq2]
      rw [hnib]
      rw [show pixelIndex (indexBuffer4 img flag pal) img.width (findClosestColor pal) x y =
        findClosestColor pal ((indexBuffer4 img flag pal).getD ((y * img.width + x) * 4) 0)
          ((indexBuffer4 img flag pal).getD ((y * img.width + x) * 4 + 1) 0)
          ((indexBuffer4 img flag pal).getD ((y * img.width + x) * 4 + 2) 0) from by
        rw [pixelIndex, if_neg halpha']] at hidx ⊢
      rw [decodePaletteEntry]
      have hpb0 := file4_palette_byte img flag _ pal hpal hFfile _ 0 hidx (by omega)
      simp only [Nat.add_zero] at hpb0
      rw [hpb0, file4_palette_byte img flag _ pal hpal hFfile _ 1 hidx (by omega),
        file4_palette_byte img flag _ pal hpal hFfile _ 2 hidx (by omega)]
      obtain ⟨hr, hg, hb⟩ := palette_getD_bounded pal _ hbnd
      simp only [List.getD_cons_zero, List.getD_cons_succ]
      rw [clampByte_eq_self _ hr, clampByte_eq_self _ hg, clampByte_eq_self _ hb,
        byte_eq_self _ hr, byte_eq_self _ hg, byte_eq_self _ hb]

/-- Witness for C1 at a concrete instance: a 1×1 opaque red image at depth
4-bit without dithering. -/
theorem preview_matches_encode_witness :
    (∀ v ∈ redImg.data, v ≤ 255) ∧ 0 < redImg.width ∧ 0 < redImg.height ∧
      128 ≤ redImg.data.getD ((0 * redImg.width + 0) * 4 + 3) 0 ∧
      (previewAt .d4 redImg false).isSome ∧ (encodeAt .d4 redImg false).isSome ∧
      imagePixelRGB ((previewAt .d4 redImg false).getD ⟨0, 0, []⟩) 0 0 =
        decodeAt .d4 ((encodeAt .d4 redImg false).getD []) redImg.width 0 0 :=
  ⟨by decide, by decide, by decide, by decide, by decide, by decide,
    preview_matches_encode .d4 redImg false 0 0 (by decide) (by decide) (by decide)
      (by decide) (by decide) (by decide)⟩

/-! ## C8: a uniform image quantizes without artifacts -/

theorem findIdx?_lt {α : Type} (p : α → Bool) :
    ∀ (l : List α) (i j : Nat), List.findIdx? p l i = some j → j < i + l.length := by
  intro l
  induction l with
  | nil => intro i j h; exact absurd h (by simp [List.findIdx?])
  | cons a rest ih =>
    intro i j h
    rw [List.findIdx?] at h
    split_ifs at h
    · cases h
      simp
    · have := ih (i + 1) j h
      simp only [List.length_cons]
      omega

theorem findSplittableIdx_lt (boxes : List Box) (i : Nat)
    (h : findSplittableIdx boxes = some i) : i < boxes.length := by
  have := findIdx?_lt _ boxes 0 i h
  omega

theorem enumFrom_foldl_skip (boxes : List Box) (h : ∀ box ∈ boxes, box.colors.length ≤ 1) :
    ∀ (n : Nat) (st : Option Nat × ℤ),
      (List.enumFrom n boxes).foldl
        (fun st ic =>
          if ic.2.colors.length ≤ 1 then st
          else if st.2 < boxVolume ic.2 then (some ic.1, boxVolume ic.2) else st) st = st := by
  induction boxes with
  | nil => intro n st; rfl
  | cons b rest ih =>
    intro n st
    rw [List.enumFrom, List.foldl_cons]
    have hb : b.colors.length ≤ 1 := h b (List.mem_cons_self _ _)
    rw [if_pos hb]
    exact ih (fun box hbox => h box (List.mem_cons_of_mem _ hbox)) (n + 1) st

theorem findLargestIdx_none (boxes : List Box)
    (h : ∀ box ∈ boxes, box.colors.length ≤ 1) : findLargestIdx boxes = none := by
  rw [findLargestIdx]
  rw [show boxes.enum = List.enumFrom 0 boxes from rfl]
  rw [enumFrom_foldl_skip boxes h 0 (none, 0)]

theorem forcedSplitChildren_eq (box : Box) (axis : Axis) (color : ColorSample) :
    forcedSplitChildren box axis color = ([color], [color]) := by
  simp only [forcedSplitChildren]
  split_ifs <;> simp_all

/-- Splitting any box whose sample list is exactly `[c]` produces two boxes
whose sample lists are exactly `[c]`. -/
theorem splitBoxAt_single (c : ColorSample) (boxes : List Box) (i : Nat)
    (hall : ∀ box ∈ boxes, box.colors = [c]) (hi : i < boxes.length) :
    ∃ boxes', splitBoxAt boxes i = some boxes' ∧ boxes' ≠ [] ∧
      ∀ box ∈ boxes', box.colors = [c] := by
  have hboxc : (boxes.getD i default).colors = [c] :=
    hall _ (getD_mem_of_lt boxes i default hi)
  rw [splitBoxAt]
  rw [hboxc]
  simp only [List.length_cons, List.length_nil, List.head?_cons]
  rw [if_pos (by omega)]
  refine ⟨_, rfl, by simp, ?_⟩
  intro box hbox
  rcases List.mem_append.mp hbox with hb | hb
  · rcases List.mem_append.mp hb with hb' | hb'
    · exact hall box ((List.take_sublist i boxes).mem hb')
    · rw [forcedSplitChildren_eq] at hb'
      rcases List.mem_cons.mp hb' with rfl | hb''
      · rw [updateBounds_fst_colors]
      · rcases List.mem_singleton.mp (by simpa using hb'') with rfl
        rw [updateBounds_snd_colors]
  · exact hall box ((List.drop_sublist (i + 1) boxes).mem hb)

theorem dupFill_single (c : ColorSample) (existing maxColors : Nat) :
    ∀ (fuel : Nat) (boxes : List Box), boxes ≠ [] →
      0 < existing → existing ≤ boxes.length →
      (∀ box ∈ boxes, box.colors = [c]) →
      dupFill existing maxColors fuel boxes ≠ [] ∧
        ∀ box ∈ dupFill existing maxColors fuel boxes, box.colors = [c] := by
  intro fuel
  induction fuel with
  | zero => intro boxes hne _ _ hall; exact ⟨hne, hall⟩
  | succ fuel ih =>
    intro boxes hne hex hexle hall
    rw [dupFill]
    split_ifs with hcond
    · apply ih
      · simp
      · exact hex
      · rw [List.length_append]
        simp only [List.length_cons, List.length_nil]
        omega
      · intro box hbox
        rcases List.mem_append.mp hbox with hb | hb
        · exact hall box hb
        · rcases List.mem_singleton.mp hb with rfl
          have hlt : boxes.length % existing < boxes.length := by
            have := Nat.mod_lt boxes.length hex
            omega
          exact hall _ (getD_mem_of_lt boxes _ default hlt)
    · exact ⟨hne, hall⟩

theorem medianCutLoop_single (c : ColorSample) (maxColors : Nat) :
    ∀ (fuel : Nat) (boxes : List Box), boxes ≠ [] →
      (∀ box ∈ boxes, box.colors = [c]) →
      ∃ boxes', medianCutLoop maxColors fuel boxes = some boxes' ∧ boxes' ≠ [] ∧
        ∀ box ∈ boxes', box.colors = [c] := by
  intro fuel
  induction fuel with
  | zero =>
    intro boxes hne hall
    exact ⟨boxes, rfl, hne, hall⟩
  | succ fuel ih =>
    intro boxes hne hall
    rw [medianCutLoop]
    split_ifs with hcond
    · rw [findLargestIdx_none boxes (fun box hbox => by rw [hall box hbox]; simp)]
      dsimp only
      cases hsp : findSplittableIdx boxes with
      | some i =>
        dsimp only
        obtain ⟨mid, hmid, hmidne, hmidall⟩ :=
          splitBoxAt_single c boxes i hall (findSplittableIdx_lt boxes i hsp)
        rw [hmid, Option.some_bind]
        exact ih mid hmidne hmidall
      | none =>
        dsimp only
        obtain ⟨hne', hall'⟩ := dupFill_single c boxes.length maxColors maxColors boxes
          hne (by cases boxes with | nil => exact absurd rfl hne | cons => simp)
          (le_refl _) hall
        exact ⟨_, rfl, hne', hall'⟩
    · exact ⟨boxes, rfl, hne, hall⟩

theorem natRoundDiv_mul (a b : Nat) (hb : 0 < b) : natRoundDiv (a * b) b = a := by
  rw [natRoundDiv]
  rw [show 2 * (a * b) + b = b * (2 * a + 1) by ring, show 2 * b = b * 2 by ring]
  rw [Nat.mul_div_mul_left _ _ hb]
  omega

theorem boxAvg_single (c : ColorSample) (hc : 0 < c.count) :
    boxAvg [c] = ⟨c.r, c.g, c.b⟩ := by
  simp only [boxAvg, List.foldl_cons, List.foldl_nil, Nat.zero_add]
  rw [natRoundDiv_mul _ _ hc, natRoundDiv_mul _ _ hc, natRoundDiv_mul _ _ hc]

theorem paletteOfBoxes_single (c : ColorSample) (boxes : List Box) (N : Nat)
    (hne : boxes ≠ []) (hall : ∀ box ∈ boxes, box.colors = [c]) (hcnt : 0 < c.count)
    (hnb : (⟨c.r, c.g, c.b⟩ : RGB) ≠ black) (hN : 2 ≤ N) :
    (paletteOfBoxes boxes N).getD 1 black = ⟨c.r, c.g, c.b⟩ := by
  obtain ⟨b, rest, rfl⟩ := List.exists_cons_of_ne_nil hne
  have hb : b.colors = [c] := hall b (List.mem_cons_self _ _)
  have haddbox : addBox N [black] b = [black, ⟨c.r, c.g, c.b⟩] := by
    simp only [addBox, hb, boxAvg_single c hcnt, List.isEmpty_cons, Bool.false_eq_true,
      if_false, if_neg hnb]
    rfl
  have haddboxes : addBoxes N [black] (b :: rest) =
      addBoxes N [black, ⟨c.r, c.g, c.b⟩] rest := by
    rw [addBoxes]
    rw [if_neg (by simp only [List.length_cons, List.length_nil]; omega), haddbox]
  obtain ⟨t, ht⟩ := addBoxes_append N rest [black, ⟨c.r, c.g, c.b⟩]
  obtain ⟨k, rfl⟩ := Nat.exists_eq_add_of_le hN
  rw [paletteOfBoxes, haddboxes, ht]
  rw [show ([black, ⟨c.r, c.g, c.b⟩] ++ t) = black :: ⟨c.r, c.g, c.b⟩ :: t from rfl]
  rw [show (black :: (⟨c.r, c.g, c.b⟩ : RGB) :: t) ++
      List.replicate (2 + k - (black :: (⟨c.r, c.g, c.b⟩ : RGB) :: t).length) black =
    black :: (⟨c.r, c.g, c.b⟩ : RGB) ::
      (t ++ List.replicate (2 + k - (black :: (⟨c.r, c.g, c.b⟩ : RGB) :: t).length) black)
    from rfl]
  rw [show 2 + k = (k + 1) + 1 by omega, List.take_succ_cons, List.take_succ_cons]
  rfl

theorem head?_getD_black (pal : List RGB) (h : pal.head? = some black) :
    pal.getD 0 black = black := by
  cases pal with
  | nil => exact absurd h (by simp)
  | cons a rest =>
    rw [List.head?_cons] at h
    rw [List.getD_cons_zero]
    exact Option.some.inj h

/-- On a palette whose entry 0 is black and entry 1 is `(128,128,128)`, the
matcher sends `(128,128,128)` to index 1: entry 1 has distance 0, entry 0 has
positive distance, and ties resolve to the first minimal entry. -/
theorem findClosestColor_gray (pal : List RGB) (hlen : 2 ≤ pal.length)
    (h0 : pal.getD 0 black = black) (h1 : pal.getD 1 black = ⟨128, 128, 128⟩) :
    findClosestColor pal 128 128 128 = 1 := by
  obtain ⟨hlt, hmin, hfirst⟩ :=
    findClosestColor_spec pal 128 128 128 (List.ne_nil_of_length_pos (by omega))
  have hd1 : slotDist pal 128 128 128 1 = 0 := by
    rw [slotDist, h1]
    decide
  have hd0 : slotDist pal 128 128 128 0 = 1638400 := by
    rw [slotDist, h0]
    decide
  have hresle := hmin 1 (by omega)
  rw [hd1] at hresle
  have hresnn : 0 ≤ slotDist pal 128 128 128 (findClosestColor pal 128 128 128) :=
    distToEntry_nonneg _ _ _ _
  have hres0 : slotDist pal 128 128 128 (findClosestColor pal 128 128 128) = 0 := by
    omega
  have hle1 : findClosestColor pal 128 128 128 ≤ 1 := by
    apply hfirst 1 (by omega)
    rw [hd1, hres0]
  have hne0 : findClosestColor pal 128 128 128 ≠ 0 := by
    intro h
    rw [h, hd0] at hres0
    omega
  omega

/-- **C8**: encoding the 2×2 uniform opaque gray image at 8-bit produces four
identical index bytes, and the palette entry at that shared index is exactly
`(128, 128, 128)`. -/
theorem gray2x2_uniform_8bit :
    (encodeBMP8Bit gray2x2 false).isSome ∧
      ((encodeBMP8Bit gray2x2 false).getD []).getD 1079 0 =
        ((encodeBMP8Bit gray2x2 false).getD []).getD 1078 0 ∧
      ((encodeBMP8Bit gray2x2 false).getD []).getD 1082 0 =
        ((encodeBMP8Bit gray2x2 false).getD []).getD 1078 0 ∧
      ((encodeBMP8Bit gray2x2 false).getD []).getD 1083 0 =
        ((encodeBMP8Bit gray2x2 false).getD []).getD 1078 0 ∧
      ((encodeBMP8Bit gray2x2 false).getD []).getD
          (54 + 4 * ((encodeBMP8Bit gray2x2 false).getD []).getD 1078 0 + 2) 0 = 128 ∧
      ((encodeBMP8Bit gray2x2 false).getD []).getD
          (54 + 4 * ((encodeBMP8Bit gray2x2 false).getD []).getD 1078 0 + 1) 0 = 128 ∧
      ((encodeBMP8Bit gray2x2 false).getD []).getD
          (54 + 4 * ((encodeBMP8Bit gray2x2 false).getD []).getD 1078 0) 0 = 128 := by
  have hcol : collectColors gray2x2.data = [⟨128, 128, 128, 4⟩] := by decide
  obtain ⟨boxes', hloop, hne', hall'⟩ := medianCutLoop_single ⟨128, 128, 128, 4⟩ 256 256
    [⟨[⟨128, 128, 128, 4⟩], 0, 255, 0, 255, 0, 255⟩] (by simp)
    (by
      intro box hbox
      rw [List.mem_singleton.mp hbox])
  have hpal : medianCutQuantize gray2x2.data 256 = some (paletteOfBoxes boxes' 256) := by
    simp only [medianCutQuantize, hcol]
    rw [if_neg (by decide), hloop, Option.some_bind]
  set pal := paletteOfBoxes boxes' 256 with hpaldef
  have hlen : pal.length = 256 := paletteOfBoxes_length _ _
  have h1 : pal.getD 1 black = ⟨128, 128, 128⟩ :=
    paletteOfBoxes_single ⟨128, 128, 128, 4⟩ boxes' 256 hne' hall' (by decide)
      (by decide) (by omega)
  have h0 : pal.getD 0 black = black :=
    head?_getD_black pal (medianCutQuantize_head _ _ _ (by omega) hpal)
  have hfcc : findClosestColor pal 128 128 128 = 1 :=
    findClosestColor_gray pal (by omega) h0 h1
  have hF := encodeBMP8Bit_eq gray2x2 false pal hpal
  have hpix : ∀ x y, x < 2 → y < 2 →
      pixelIndex (indexBuffer8 gray2x2 false pal) gray2x2.width (findClosestColor pal)
        x y = 1 := by
    intro x y hx hy
    interval_cases x <;> interval_cases y <;>
      · show pixelIndex gray2x2.data 2 (findClosestColor pal) _ _ = 1
        rw [pixelIndex]
        rw [if_neg (by decide)]
        exact hfcc
  have hb00 := encodeBMP8Bit_index_byte gray2x2 false _ pal hpal hF 0 0
    (by decide) (by decide)
  have hb10 := encodeBMP8Bit_index_byte gray2x2 false _ pal hpal hF 1 0
    (by decide) (by decide)
  have hb01 := encodeBMP8Bit_index_byte gray2x2 false _ pal hpal hF 0 1
    (by decide) (by decide)
  have hb11 := encodeBMP8Bit_index_byte gray2x2 false _ pal hpal hF 1 1
    (by decide) (by decide)
  rw [hpix 0 0 (by omega) (by omega)] at hb00
  rw [hpix 1 0 (by omega) (by omega)] at hb10
  rw [hpix 0 1 (by omega) (by omega)] at hb01
  rw [hpix 1 1 (by omega) (by omega)] at hb11
  rw [show 54 + 1024 + 0 * rowSize 8 gray2x2.width + 0 = 1078 by decide] at hb00
  rw [show 54 + 1024 + 0 * rowSize 8 gray2x2.width + 1 = 1079 by decide] at hb10
  rw [show 54 + 1024 + 1 * rowSize 8 gray2x2.width + 0 = 1082 by decide] at hb01
  rw [show 54 + 1024 + 1 * rowSize 8 gray2x2.width + 1 = 1083 by decide] at hb11
  have hpbR := file8_palette_byte gray2x2 false _ pal hpal hF 1 2 (by omega) (by omega)
  have hpbG := file8_palette_byte gray2x2 false _ pal hpal hF 1 1 (by omega) (by omega)
  have hpbB := file8_palette_byte gray2x2 false _ pal hpal hF 1 0 (by omega) (by omega)
  rw [h1] at hpbR hpbG hpbB
  simp only [hF, Option.getD_some, Option.isSome_some]
  refine ⟨trivial, ?_, ?_, ?_, ?_, ?_, ?_⟩
  · rw [hb10, hb00]
  · rw [hb01, hb00]
  · rw [hb11, hb00]
  · rw [hb00]
    rw [show 54 + 4 * 1 + 2 = 54 + 4 * 1 + 2 from rfl] at hpbR
    rw [hpbR]
    rfl
  · rw [hb00, hpbG]
    rfl
  · rw [hb00]
    rw [show (54 + 4 * 1 : Nat) = 54 + 4 * 1 + 0 by omega, hpbB]
    rfl

/-- Witness for C5 at the 1×1 red image. -/
theorem encodeBMP_lossless_witness :
    (∀ v ∈ redImg.data, v ≤ 255) ∧ 0 < redImg.width ∧ 0 < redImg.height ∧
      decodeBMP24At (encodeBMP redImg) redImg.width 0 0 = imagePixelRGB redImg 0 0 :=
  ⟨by decide, by decide, by decide,
    (encodeBMP_lossless redImg 0 0 (by decide) (by decide) (by decide)).2.2.2⟩

set_option maxRecDepth 4000 in
/-- Witness for C6 at concrete transparent pixels. -/
theorem transparent_pixels_index0_witness :
    pixelIndex [3, 2, 1, 0] 1 (fun _ _ _ => 5) 0 0 = 0 ∧
      ((encodeBMP8Bit ⟨1, 1, [3, 2, 1, 0]⟩ false).getD []).getD
        (54 + 1024 + 0 * rowSize 8 1 + 0) 0 = 0 := by
  refine ⟨transparent_pixels_index0.1 [3, 2, 1, 0] 1 (fun _ _ _ => 5) 0 0 (by decide), ?_⟩
  have hF : encodeBMP8Bit ⟨1, 1, [3, 2, 1, 0]⟩ false =
      some ((encodeBMP8Bit ⟨1, 1, [3, 2, 1, 0]⟩ false).getD []) := rfl
  have := transparent_pixels_index0.2.1 ⟨1, 1, [3, 2, 1, 0]⟩ false
    ((encodeBMP8Bit ⟨1, 1, [3, 2, 1, 0]⟩ false).getD []) (List.replicate 256 black)
    (by decide) hF 0 0 (by decide) (by decide) (by decide)
  exact this

/-- Witness for C9 at the 1×1 (odd-width) red image. -/
theorem encodeBMP4Bit_packing_witness :
    medianCutQuantize redImg.data 16 = some redPal ∧
      encodeBMP4Bit redImg false = some ((encodeBMP4Bit redImg false).getD []) ∧
      0 < redImg.width ∧ 0 < redImg.height ∧ (0 : Nat) % 2 = 0 ∧
      (pixelIndex (indexBuffer4 redImg false redPal) redImg.width
          (findClosestColor redPal) 0 0 < 16 ∧
        ((encodeBMP4Bit redImg false).getD []).getD
            (54 + 64 + 0 * rowSize 4 redImg.width + 0 / 2) 0 / 16 =
          pixelIndex (indexBuffer4 redImg false redPal) redImg.width
            (findClosestColor redPal) 0 0 ∧
        ((encodeBMP4Bit redImg false).getD []).getD
            (54 + 64 + 0 * rowSize 4 redImg.width + 0 / 2) 0 % 16 =
          (if 0 + 1 < redImg.width
            then pixelIndex (indexBuffer4 redImg false redPal) redImg.width
              (findClosestColor redPal) (0 + 1) 0
            else 0) ∧
        (redImg.width % 2 = 1 →
          ((encodeBMP4Bit redImg false).getD []).getD
            (54 + 64 + 0 * rowSize 4 redImg.width + (redImg.width - 1) / 2) 0 % 16 = 0)) :=
  ⟨by decide, by decide, by decide, by decide, by decide,
    encodeBMP4Bit_packing redImg false ((encodeBMP4Bit redImg false).getD []) redPal
      (by decide) (by decide) 0 0 (by decide) (by decide) (by decide)⟩

end BmpSpec
